import Mathlib

/-!
Verification development for the lem-in path-finding core
(`src/utils/paths.go`): route enumeration (`allPaths`), disjoint route
selection (`bestDisjointPaths`), turn counting (`countTurns`) and the
driver `FindPaths`.  Rooms are identified by natural numbers (Go works
with `*Room` pointers; pointer identity becomes `Nat` identity).

Go `int` values are 64-bit two's-complement integers: they are modelled
as `Int` together with the explicit reduction `wrap` into
`[-2^63, 2^63)` applied wherever the source performs `int` arithmetic
that can overflow.  This matters in two places: the sentinel
`int(^uint(0) >> 1)` that initialises `bestTurns` (the literal
`2^63 - 1` here), and the whole of `countTurns`, whose accumulator
`total` and counter `turns` silently wrap around.  Because of the
wrapping the Go scan `for turns := 1; ; turns++` genuinely fails to
terminate for some inputs (for instance two hop counts `[1, 1]` and a
token count of `2^63 - 1`: the wrapped total is always even and can
never reach the odd target, see `claim_C1_counterexample`).  The scan
state is a function of the wrapped `turns` value alone and that value
is periodic with period `2^64`, so the loop either returns within
`2^64` iterations or runs forever; `countTurns` is therefore embedded
with exactly `2^64` units of fuel and an `Option` result in which
`none` holds precisely when the Go loop diverges.

A hanging scan and the out-of-range interior slice `p[1:len(p)-1]` are
the two abnormal ways `bestDisjointPaths` can fail to return; they are
distinct observable behaviours (an infinite loop versus a runtime
panic), kept apart as `Fail.hang` and `Fail.panic` in the `Except`
result of the embedded search, in the order the Go execution would
reach them.
-/

/-- Modelled from the spec (sections 3 and 4.1): the Graph data model
(`Graph` / `Room` with its `Links` slice, `Start`, `End`, `Ants`) is not
among the provided source files, only its consumer `paths.go` is.  A room
is a `Nat`; `links` gives each room's ordered neighbour list (the Go
`Room.Links` slice); `finish` plays the role of the Go field `End`
(`end` is a Lean keyword); `ants` is the token count. -/
structure Graph where
  rooms : List Nat
  links : Nat → List Nat
  start : Nat
  finish : Nat
  ants : Int

/-- Modelled from the spec (section 4.2): the constant `MaxPaths` used by
`FindPaths` is declared outside the provided sources; the spec says the
cap is kept small ("tens, not thousands"). -/
def MaxPaths : Nat := 50

mutual

/-- Embedding of the recursive closure `dfs` in `allPaths`
(src/utils/paths.go lines 10-38).  `fuel` only bounds the recursion
depth (the Go recursion is bounded by the finite room set); one unit is
consumed per room entered, and `allPaths` supplies `rooms.length + 1`
units, which is proved sufficient below. -/
def dfsAux (g : Graph) (limit : Nat) : Nat → Nat → List Nat → List Nat → List (List Nat) → List (List Nat)
  | 0, _, _, _, res => res
  | fuel + 1, r, visited, path, res =>
    if limit ≤ res.length then res
    else if r = g.finish then res ++ [path ++ [r]]
    else dfsNbrs g limit fuel (g.links r) (r :: visited) (path ++ [r]) res
termination_by fuel _ _ _ _ => (fuel, 0)

/-- Embedding of the neighbour loop `for _, nb := range r.Links`
(src/utils/paths.go lines 29-33): visit each unvisited neighbour in
order, threading the accumulated result list. -/
def dfsNbrs (g : Graph) (limit : Nat) : Nat → List Nat → List Nat → List Nat → List (List Nat) → List (List Nat)
  | _, [], _, _, res => res
  | fuel, nb :: rest, visited, path, res =>
    dfsNbrs g limit fuel rest visited path
      (if nb ∈ visited then res else dfsAux g limit fuel nb visited path res)
termination_by fuel nbs _ _ _ => (fuel, nbs.length + 1)

end

/-- Embedding of `allPaths` (src/utils/paths.go lines 5-41): depth-first
enumeration of simple start-to-finish routes, capped at `limit`. -/
def allPaths (g : Graph) (limit : Nat) : List (List Nat) :=
  dfsAux g limit (g.rooms.length + 1) g.start [] [] []

/-- Reduction of an unbounded integer to the 64-bit two's-complement
value with the same bit pattern: the unique representative in
`[-2^63, 2^63)` congruent mod `2^64`.  Every Go `int` operation in
`countTurns` is this reduction applied to the exact result. -/
def wrap (x : Int) : Int :=
  (x + 9223372036854775808) % 18446744073709551616 - 9223372036854775808

/-- The mathematical (non-wrapping) capacity of the routes with hop
counts `lens` at turn `turns`: `Σ max(0, turns - l + 1)`, the formula
the spec states for the inner loop of `countTurns` (section 4.4).  The
Go accumulator computes this only while no intermediate value leaves
the `int64` range; the source-faithful wrapped accumulator is `capAtW`
below, and `capAtW_eq_capAt` delimits where the two agree. -/
def capAt (lens : List Int) (turns : Int) : Int :=
  lens.foldr (fun l total => (if 0 ≤ turns - l then turns - l + 1 else 0) + total) 0

/-- The value of `total` computed by the inner loop of `countTurns`
(src/utils/paths.go lines 165-170) with Go `int` (64-bit wrapping)
arithmetic: iterate over `lens` in order, and for each `l` with
`turns - l >= 0` (tested on the wrapped difference) add `turns - l + 1`
to `total`, every addition wrapping at the `int64` width. -/
def capAtW (lens : List Int) (turns : Int) : Int :=
  lens.foldl
    (fun total l =>
      if 0 ≤ wrap (turns - l) then wrap (total + (wrap (turns - l) + 1)) else total)
    0

/-- Reference scan over the mathematical capacity `capAt`, used only to
state and obtain the minimal ideal turn count; the source-faithful scan
is `countTurnsAux` below. -/
def idealScan (ants : Int) (lens : List Int) : Nat → Int → Option Int
  | 0, _ => none
  | fuel + 1, turns =>
    if ants ≤ capAt lens turns then some turns
    else idealScan ants lens fuel (turns + 1)

/-- Fuel-indexed embedding of the unbounded scan `for turns := 1; ;
turns++` in `countTurns` (src/utils/paths.go lines 163-175), starting
at `turns` and taking at most `fuel` further steps.  The loop body
compares the wrapped accumulator `capAtW` against `ants`, and the
`turns++` increment wraps at the `int64` width like every other Go
`int` operation. -/
def countTurnsAux (ants : Int) (lens : List Int) : Nat → Int → Option Int
  | 0, _ => none
  | fuel + 1, turns =>
    if ants ≤ capAtW lens turns then some turns
    else countTurnsAux ants lens fuel (wrap (turns + 1))

/-- Embedding of `countTurns` (src/utils/paths.go lines 162-175).  The
wrapped `turns` counter starting from 1 is periodic with period `2^64`
and the loop body depends on nothing but its current value, so the Go
loop either returns within `2^64` iterations or repeats the same
fruitless cycle forever: with exactly `2^64` units of fuel, `none`
holds precisely when the Go loop does not terminate. -/
def countTurns (ants : Int) (lens : List Int) : Option Int :=
  countTurnsAux ants lens 18446744073709551616 1

/-- Interior of a route: the Go slice `p[1 : len(p)-1]`
(src/utils/paths.go line 110), in bounds exactly when `2 ≤ p.length`. -/
def interiorRooms (p : List Nat) : List Nat :=
  (p.drop 1).dropLast

/-- Hop counts of the selected routes: `lens[j] = len(path) - 1`
(src/utils/paths.go lines 60-63). -/
def lensOf (cur : List (List Nat)) : List Int :=
  cur.map (fun p => (p.length : Int) - 1)

/-- State threaded through the search in `bestDisjointPaths`
(src/utils/paths.go lines 44-46): `bestTurns`, `best`, `bestIdx`. -/
structure BestSt where
  bestTurns : Int
  best : List (List Nat)
  bestIdx : List Nat
deriving Repr, DecidableEq

/-- Sentinel initial value of `bestTurns`: `int(^uint(0) >> 1)`
(src/utils/paths.go line 44) on a 64-bit platform. -/
def maxIntGo : Int := 9223372036854775807

/-- Initial search state of `bestDisjointPaths`
(src/utils/paths.go lines 44-46 and 134). -/
def initSt : BestSt := ⟨maxIntGo, [], []⟩

/-- Embedding of the tie-break in `bestDisjointPaths`
(src/utils/paths.go lines 74-87): scan the shared prefix of `idxs` and
`bestIdx` for the first differing entry (smaller wins, larger stops the
scan), then, if the scan did not declare `idxs` better, `idxs` still
wins when it is strictly shorter.  The recursion consumes equal heads;
on the first strictly smaller head it returns `true`, on the first
strictly larger head the remaining comparison is exactly the final
length test, and when one list is exhausted the loop body never ran a
deciding step, leaving only the length test. -/
def betterIdx : List Nat → List Nat → Bool
  | [], b => decide (0 < b.length)
  | _ :: _, [] => false
  | a :: as, b :: bs =>
    if a < b then true
    else if b < a then decide (as.length < bs.length)
    else betterIdx as bs

/-- The comparison-and-update step of the base case of `rec` in
`bestDisjointPaths` (src/utils/paths.go lines 53-97): skip empty
combinations, otherwise score the combination with `countTurns` and
keep it if it beats the stored best.  `recE` below reaches this step
only after its own `countTurns` match confirmed the scan returns
`some`; `getD 0` then unwraps that same value (a diverging scan never
reaches the comparison, `recE` stops with `Fail.hang` instead). -/
def offer (ants : Int) (st : BestSt) (cur : List (List Nat)) (idxs : List Nat) : BestSt :=
  if cur = [] then st
  else
    let t := (countTurns ants (lensOf cur)).getD 0
    if t < st.bestTurns ∨ (t = st.bestTurns ∧ betterIdx idxs st.bestIdx = true) then
      ⟨t, cur, idxs⟩
    else st

/-- Embedding of the validity check of `rec` (src/utils/paths.go lines
108-115): the candidate path's interiorRooms must avoid every room already
used by the combination being built. -/
def disjFrom (p : List Nat) (used : List Nat) : Bool :=
  (interiorRooms p).all (fun r => !(decide (r ∈ used)))

/-- Embedding of the recursive case of `rec` in `bestDisjointPaths`
(src/utils/paths.go lines 99-132): first skip path `i`, then (if its
interiorRooms is disjoint from `used`) include it.  The Go maps and slices
mutated and restored on backtrack become functional arguments. -/
def recP (ants : Int) : List (List Nat) → Nat → List (List Nat) → List Nat → List Nat → BestSt → BestSt
  | [], _, cur, idxs, _, st => offer ants st cur idxs
  | p :: rest, i, cur, idxs, used, st =>
    let st1 := recP ants rest (i + 1) cur idxs used st
    if disjFrom p used then
      recP ants rest (i + 1) (cur ++ [p]) (idxs ++ [i]) (used ++ interiorRooms p) st1
    else st1

/-- Full final state of the search in `bestDisjointPaths`
(src/utils/paths.go line 134), computed by the total recursion `recP`:
`rec(0, nil, nil, map[...]{})`.  This equals the real outcome exactly
when the source-faithful `recE` below finishes normally
(`recE_eq_of_ok`). -/
def bestCombo (all : List (List Nat)) (ants : Int) : BestSt :=
  recP ants all 0 [] [] [] initSt

/-- The two abnormal outcomes of `bestDisjointPaths`: `panic` is the
out-of-range slice `p[1:len(p)-1]` on a path with fewer than two rooms
(src/utils/paths.go line 110, a runtime abort), `hang` is a `countTurns`
scan that never returns (src/utils/paths.go line 66, an infinite
loop). -/
inductive Fail where
  | panic : Fail
  | hang : Fail
deriving Repr, DecidableEq

/-- Embedding of `rec` in `bestDisjointPaths` (src/utils/paths.go lines
50-132) with its two failure modes explicit, in Go execution order.
Base case (lines 53-97): an empty combination returns at once; a
non-empty one first runs `countTurns` — if that scan diverges the whole
call hangs — and then performs the comparison-and-update step `offer`.
Recursive case (lines 99-132): the skip branch runs first and its
failure pre-empts everything after; then the interior slice
`p[1:len(p)-1]` is evaluated (out of bounds, a panic, unless the path
has at least two rooms); then, if the interior avoids `used`, the
include branch runs. -/
def recE (ants : Int) : List (List Nat) → Nat → List (List Nat) → List Nat → List Nat → BestSt → Except Fail BestSt
  | [], _, cur, idxs, _, st =>
    if cur = [] then .ok st
    else
      match countTurns ants (lensOf cur) with
      | none => .error .hang
      | some _ => .ok (offer ants st cur idxs)
  | p :: rest, i, cur, idxs, used, st =>
    match recE ants rest (i + 1) cur idxs used st with
    | .error e => .error e
    | .ok st1 =>
      if 2 ≤ p.length then
        if disjFrom p used then
          recE ants rest (i + 1) (cur ++ [p]) (idxs ++ [i]) (used ++ interiorRooms p) st1
        else .ok st1
      else .error .panic

/-- Embedding of `bestDisjointPaths` (src/utils/paths.go lines 43-136):
run the search from the empty selection and return the stored best
combination; an out-of-range interior slice or a non-terminating
`countTurns` scan instead makes the call abort or hang
(`Except.error`). -/
def bestDisjointPaths (all : List (List Nat)) (ants : Int) : Except Fail (List (List Nat)) :=
  (recE ants all 0 [] [] [] initSt).map (fun st => st.best)

/-- Insertion of one route into a length-sorted route list, placing it
before the first route of greater or equal length position-wise after
all strictly shorter ones: the unique behaviour of a stable
length-ascending sort on that element. -/
def insRoute (p : List Nat) : List (List Nat) → List (List Nat)
  | [] => [p]
  | q :: t => if p.length ≤ q.length then p :: q :: t else q :: insRoute p t

/-- Embedding of the `sort.SliceStable` call in `FindPaths`
(src/utils/paths.go lines 145-156).  The comparator orders by length
(its `i < j` clause for equal lengths restates the stability the library
already guarantees), and a stable sort's output is uniquely determined
by its input, so any stable length-sort is an exact model; insertion
sort is used. -/
def sortRoutes : List (List Nat) → List (List Nat)
  | [] => []
  | p :: t => insRoute p (sortRoutes t)

/-- Embedding of `FindPaths` (src/utils/paths.go lines 138-160):
enumerate, sort stably by length, then select the best disjoint
combination. -/
def FindPaths (g : Graph) : Except Fail (List (List Nat)) :=
  bestDisjointPaths (sortRoutes (allPaths g MaxPaths)) g.ants

/-- Consecutive rooms of a route are neighbours in the graph. -/
def linked (g : Graph) (p : List Nat) : Prop :=
  List.Chain' (fun a b => b ∈ g.links a) p

/-- A route as produced by the enumerator: starts at Start, ends at End,
visits no room twice, follows links. -/
def routeOK (g : Graph) (p : List Nat) : Prop :=
  p.head? = some g.start ∧ p.getLast? = some g.finish ∧ p.Nodup ∧ linked g p

/-- Invariant holding at each entry of the Go closure `dfs(r)`:
`visited` is the set of rooms of the current partial `path`, `r` is a
fresh room extending it, the extended path starts at Start, follows
links, and End has not been entered. -/
def auxInv (g : Graph) (r : Nat) (visited path : List Nat) : Prop :=
  (∀ x, x ∈ visited ↔ x ∈ path) ∧ path.Nodup ∧ r ∉ path ∧
  (path ++ [r]).head? = some g.start ∧ linked g (path ++ [r]) ∧ g.finish ∉ path

/-- Invariant holding while iterating over the neighbour list of the
room last appended to `path`. -/
def nbrsInv (g : Graph) (nbs visited path : List Nat) : Prop :=
  (∀ x, x ∈ visited ↔ x ∈ path) ∧ path.Nodup ∧
  path.head? = some g.start ∧ linked g path ∧ g.finish ∉ path ∧
  ∃ r t, path = t ++ [r] ∧ ∀ nb ∈ nbs, nb ∈ g.links r

/-- Well-formedness of the graph model (spec section 3): distinct rooms,
Start among them, links staying inside the room set, and a room count
representable as a Go `int` — a Go slice holds at most `2^63 - 1`
elements (`len` returns a non-negative `int64`), so any graph the
program can hold satisfies the bound. -/
def wfGraph (g : Graph) : Prop :=
  g.rooms.Nodup ∧ g.start ∈ g.rooms ∧
  (∀ r ∈ g.rooms, ∀ nb ∈ g.links r, nb ∈ g.rooms) ∧
  (g.rooms.length : Int) ≤ maxIntGo

/-- A simple linked route from `r` to End avoiding `visited`, witnessing
that the search from `r` can still reach End. -/
def reachesFrom (g : Graph) (visited : List Nat) (r : Nat) (q : List Nat) : Prop :=
  q.head? = some r ∧ q.getLast? = some g.finish ∧ q.Nodup ∧ linked g q ∧
  (∀ x ∈ q, x ∉ visited) ∧ (∀ x ∈ q, x ∈ g.rooms)

/-- Number of rooms not yet visited; the decreasing measure of the
depth-first search. -/
def unvisited (g : Graph) (visited : List Nat) : Nat :=
  (g.rooms.filter (fun x => decide (x ∉ visited))).length

/-- Concrete well-formed example graph used by witnesses: rooms 0-3,
Start 0, End 3, two interior-disjoint routes 0-1-3 and 0-2-3, three
tokens. -/
def gEx : Graph :=
  ⟨[0, 1, 2, 3],
   fun r => if r = 0 then [1, 2] else if r = 1 then [0, 3] else if r = 2 then [0, 3] else [1, 2],
   0, 3, 3⟩

/-- Order on index sequences written from the spec's words (section 4.3,
rules 2 and 3): compare element-by-element over the shared prefix, the
first position with a smaller index wins; if the compared prefix is
entirely equal, the sequence with fewer routes wins.  This is
lexicographic order on lists of indices.  It is kept separate from the
code's `betterIdx`, whose length fallback also applies after the scan
stopped on a larger index. -/
def specIdxLt : List Nat → List Nat → Bool
  | _, [] => false
  | [], _ :: _ => true
  | a :: as, b :: bs => if a < b then true else if a = b then specIdxLt as bs else false

/-- Routes selected by an index sequence into the route list. -/
def pathsOf (all : List (List Nat)) (ix : List Nat) : List (List Nat) :=
  ix.map (fun j => all.getD j [])

/-- Interiors of two routes share no room. -/
def interiorDisjoint (p q : List Nat) : Prop :=
  ∀ r ∈ interiorRooms p, r ∉ interiorRooms q

/-- A fully-decided valid combination as the spec describes it (section
4.3): a strictly increasing sequence of positions into the route list
whose selected routes have pairwise disjoint interiors. -/
def ComboOK (all : List (List Nat)) (ix : List Nat) : Prop :=
  List.Chain' (· < ·) ix ∧ (∀ j ∈ ix, j < all.length) ∧
  List.Pairwise (fun a b => interiorDisjoint (all.getD a []) (all.getD b [])) ix

/-- The fully-decided combinations reached by `rec`, in recursion order
(skip branch before include branch), with the selected paths and global
indices each combination carries when it is scored. -/
def combosE : List (List Nat) → Nat → List (List Nat) → List Nat → List Nat →
    List (List (List Nat) × List Nat)
  | [], _, cur, idxs, _ => [(cur, idxs)]
  | p :: rest, i, cur, idxs, used =>
    combosE rest (i + 1) cur idxs used ++
      (if disjFrom p used then
        combosE rest (i + 1) (cur ++ [p]) (idxs ++ [i]) (used ++ interiorRooms p)
      else [])

/-- Turn score of a scored combination, as `offer` computes it.  A
non-empty combination reaches `offer` only after `recE` observed a
`some` scan result, which `getD 0` then unwraps; for a diverging scan
`recE` stops with `Fail.hang` and no score is ever consulted. -/
def tOf (ants : Int) (cur : List (List Nat)) : Int :=
  (countTurns ants (lensOf cur)).getD 0

/-- Enumeration-order relation between two scored combinations: the
later one is either lexicographically smaller in its index sequence or a
strict extension of the earlier one.  `combosE` enumerates candidates
pairwise in this relation. -/
def candR (a b : List (List Nat) × List Nat) : Prop :=
  specIdxLt b.2 a.2 = true ∨ ∃ t, t ≠ [] ∧ b.2 = a.2 ++ t

/-- Invariant of the running best state after scoring a list of
candidates: either nothing beat the sentinel (all scored turn values hit
the `maxIntGo` sentinel), or the state holds one scored candidate that
is minimal among them under the spec order (fewer turns first, then
lexicographically smaller index sequence). -/
def InvSt (ants : Int) (L : List (List (List Nat) × List Nat)) (st : BestSt) : Prop :=
  (st = initSt ∧ ∀ ci ∈ L, ci.1 ≠ [] → maxIntGo ≤ tOf ants ci.1) ∨
  ((st.best, st.bestIdx) ∈ L ∧ st.best ≠ [] ∧ st.bestTurns = tOf ants st.best ∧
    st.bestTurns < maxIntGo ∧
    ∀ ci ∈ L, ci.1 ≠ [] → (ci = (st.best, st.bestIdx) ∨
      st.bestTurns < tOf ants ci.1 ∨
      (st.bestTurns = tOf ants ci.1 ∧ specIdxLt st.bestIdx ci.2 = true)))

instance instDecLinked (g : Graph) : (p : List Nat) → Decidable (linked g p)
  | [] => isTrue List.chain'_nil
  | [a] => isTrue (List.chain'_singleton a)
  | a :: b :: t =>
    match instDecLinked g (b :: t), (inferInstance : Decidable (b ∈ g.links a)) with
    | isTrue h1, isTrue h2 => isTrue (List.chain'_cons.2 ⟨h2, h1⟩)
    | isFalse h1, _ => isFalse (fun hc => h1 (List.chain'_cons.1 hc).2)
    | _, isFalse h2 => isFalse (fun hc => h2 (List.chain'_cons.1 hc).1)

instance (g : Graph) (p : List Nat) : Decidable (routeOK g p) :=
  inferInstanceAs (Decidable (p.head? = some g.start ∧ p.getLast? = some g.finish ∧
    p.Nodup ∧ linked g p))

instance (g : Graph) : Decidable (wfGraph g) :=
  inferInstanceAs (Decidable (g.rooms.Nodup ∧ g.start ∈ g.rooms ∧
    (∀ r ∈ g.rooms, ∀ nb ∈ g.links r, nb ∈ g.rooms) ∧
    (g.rooms.length : Int) ≤ maxIntGo))

/-- Graph with a single direct Start-End link and the maximal token
count `2^63 - 1`. -/
def gBig : Graph :=
  ⟨[0, 1], fun r => if r = 0 then [1] else [0], 0, 1, maxIntGo⟩

/-- Graph with a single direct Start-End link and a zero token count. -/
def gZero : Graph :=
  ⟨[0, 1], fun r => if r = 0 then [1] else [0], 0, 1, 0⟩

/-- Graph whose Start and End coincide. -/
def gSame : Graph :=
  ⟨[0], fun _ => [], 0, 0, 3⟩

/-! ### Theorems about the embedded functions -/

theorem capAt_nil (t : Int) : capAt [] t = 0 := rfl

theorem capAt_cons (l : Int) (rest : List Int) (t : Int) :
    capAt (l :: rest) t = (if 0 ≤ t - l then t - l + 1 else 0) + capAt rest t := rfl

theorem capAt_nonneg (lens : List Int) (t : Int) : 0 ≤ capAt lens t := by
  induction lens with
  | nil => simp [capAt_nil]
  | cons l rest ih =>
    rw [capAt_cons]
    have : (0 : Int) ≤ (if 0 ≤ t - l then t - l + 1 else 0) := by
      split <;> omega
    omega

theorem idealScan_some_spec (ants : Int) (lens : List Int) :
    ∀ fuel start T, idealScan ants lens fuel start = some T →
      start ≤ T ∧ ants ≤ capAt lens T ∧ ∀ T', start ≤ T' → T' < T → capAt lens T' < ants := by
  intro fuel
  induction fuel with
  | zero => intro start T h; simp [idealScan] at h
  | succ fuel ih =>
    intro start T h
    rw [idealScan] at h
    by_cases hs : ants ≤ capAt lens start
    · rw [if_pos hs] at h
      obtain rfl : start = T := by injection h
      exact ⟨le_refl _, hs, fun T' h1 h2 => absurd h1 (by omega)⟩
    · rw [if_neg hs] at h
      obtain ⟨h1, h2, h3⟩ := ih (start + 1) T h
      refine ⟨by omega, h2, fun T' hT1 hT2 => ?_⟩
      rcases eq_or_lt_of_le hT1 with rfl | hlt
      · omega
      · exact h3 T' (by omega) hT2

theorem idealScan_some_of (ants : Int) (lens : List Int) :
    ∀ (fuel : Nat) (start T : Int), start ≤ T → ants ≤ capAt lens T →
      T < start + (fuel : Int) →
      ∃ T', idealScan ants lens fuel start = some T' := by
  intro fuel
  induction fuel with
  | zero => intro start T h1 _ h3; simp only [Nat.cast_zero] at h3; omega
  | succ fuel ih =>
    intro start T h1 h2 h3
    rw [idealScan]
    by_cases hs : ants ≤ capAt lens start
    · exact ⟨start, by rw [if_pos hs]⟩
    · have hne : start ≠ T := fun he => hs (he ▸ h2)
      have h3' : T < (start + 1) + (fuel : Int) := by push_cast at h3 ⊢; omega
      obtain ⟨T', hT'⟩ := ih (start + 1) T (by omega) h2 h3'
      exact ⟨T', by rw [if_neg hs]; exact hT'⟩

theorem ideal_min_exists (ants : Int) (lens : List Int) (h : lens ≠ []) :
    ∃ T, 1 ≤ T ∧ ants ≤ capAt lens T ∧ ∀ U, 1 ≤ U → U < T → capAt lens U < ants := by
  obtain ⟨l0, rest, rfl⟩ := List.exists_cons_of_ne_nil h
  have habs : l0 ≤ (l0.natAbs : Int) := Int.le_natAbs
  have htn : ants ≤ (ants.toNat : Int) := Int.self_le_toNat ants
  have h1 : 0 ≤ capAt rest ((l0.natAbs : Int) + (ants.toNat : Int) + 1) :=
    capAt_nonneg rest _
  have hsat : ants ≤ capAt (l0 :: rest) ((l0.natAbs : Int) + (ants.toNat : Int) + 1) := by
    rw [capAt_cons]
    have hterm : 0 ≤ ((l0.natAbs : Int) + (ants.toNat : Int) + 1) - l0 := by omega
    rw [if_pos hterm]
    omega
  have hT0 : (1 : Int) ≤ (l0.natAbs : Int) + (ants.toNat : Int) + 1 := by
    have := Int.natCast_nonneg l0.natAbs
    have := Int.natCast_nonneg ants.toNat
    omega
  have hfuel : (l0.natAbs : Int) + (ants.toNat : Int) + 1 <
      1 + ((ants.toNat + l0.natAbs + 2 : Nat) : Int) := by
    push_cast
    omega
  obtain ⟨T, hT⟩ := idealScan_some_of ants (l0 :: rest)
    (ants.toNat + l0.natAbs + 2) 1 _ hT0 hsat hfuel
  obtain ⟨hA, hB, hC⟩ := idealScan_some_spec ants (l0 :: rest) _ 1 T hT
  exact ⟨T, hA, hB, hC⟩

theorem capAt_mono_head (a b : Int) (rest : List Int) (t : Int) (hab : a ≤ b) :
    capAt (b :: rest) t ≤ capAt (a :: rest) t := by
  rw [capAt_cons, capAt_cons]
  have : (if 0 ≤ t - b then t - b + 1 else 0) ≤ (if 0 ≤ t - a then t - a + 1 else 0) := by
    split <;> split <;> omega
  omega

theorem capAt_mono_turns (lens : List Int) (U V : Int) (h : U ≤ V) :
    capAt lens U ≤ capAt lens V := by
  induction lens with
  | nil => simp [capAt_nil]
  | cons l rest ih =>
    rw [capAt_cons, capAt_cons]
    have : (if 0 ≤ U - l then U - l + 1 else 0) ≤ (if 0 ≤ V - l then V - l + 1 else 0) := by
      split <;> split <;> omega
    omega

theorem capAt_step (lens : List Int) (U : Int) :
    capAt lens (U + 1) ≤ capAt lens U + (lens.length : Int) := by
  induction lens with
  | nil => simp [capAt_nil]
  | cons l rest ih =>
    rw [capAt_cons, capAt_cons, List.length_cons]
    have : (if 0 ≤ U + 1 - l then U + 1 - l + 1 else 0) ≤
        (if 0 ≤ U - l then U - l + 1 else 0) + 1 := by
      split <;> split <;> omega
    push_cast
    omega

theorem capAt_le_len_at_one (lens : List Int) (h : ∀ l ∈ lens, 1 ≤ l) :
    capAt lens 1 ≤ (lens.length : Int) := by
  induction lens with
  | nil => simp [capAt_nil]
  | cons l rest ih =>
    have hl := h l (List.mem_cons_self l rest)
    have hrest := ih (fun x hx => h x (List.mem_cons_of_mem l hx))
    rw [capAt_cons, List.length_cons]
    have : (if 0 ≤ 1 - l then 1 - l + 1 else 0) ≤ 1 := by split <;> omega
    push_cast
    omega

theorem wrap_spec (x : Int) :
    -9223372036854775808 ≤ wrap x ∧ wrap x < 9223372036854775808 ∧
      ∃ k, wrap x = x - 18446744073709551616 * k := by
  have hmod := Int.emod_nonneg (x + 9223372036854775808)
    (by norm_num : (18446744073709551616 : Int) ≠ 0)
  have hlt := Int.emod_lt_of_pos (x + 9223372036854775808)
    (by norm_num : (0 : Int) < 18446744073709551616)
  have hdef := Int.emod_def (x + 9223372036854775808) 18446744073709551616
  refine ⟨by rw [wrap]; omega, by rw [wrap]; omega,
    ⟨(x + 9223372036854775808) / 18446744073709551616, by rw [wrap]; omega⟩⟩

theorem wrap_eq_self (x : Int) (h1 : -9223372036854775808 ≤ x)
    (h2 : x < 9223372036854775808) : wrap x = x := by
  rw [wrap, Int.emod_eq_of_lt (by omega) (by omega)]
  omega

theorem capAtW_go_eq (turns : Int) :
    ∀ (lens : List Int) (total : Int), 0 ≤ total →
      (∀ l ∈ lens, 0 ≤ l ∧ l ≤ maxIntGo) → 1 ≤ turns → turns ≤ maxIntGo →
      total + capAt lens turns ≤ maxIntGo →
      lens.foldl
        (fun total l =>
          if 0 ≤ wrap (turns - l) then wrap (total + (wrap (turns - l) + 1)) else total)
        total
      = total + capAt lens turns := by
  intro lens
  induction lens with
  | nil =>
    intro total _ _ _ _ _
    simp [capAt_nil]
  | cons l rest ih =>
    intro total htot hl ht1 ht2 hcap
    have hM : maxIntGo = 9223372036854775807 := rfl
    obtain ⟨hl0, hlmax⟩ := hl l (List.mem_cons_self l rest)
    have hrest : ∀ x ∈ rest, 0 ≤ x ∧ x ≤ maxIntGo :=
      fun x hx => hl x (List.mem_cons_of_mem l hx)
    have hwr : wrap (turns - l) = turns - l := wrap_eq_self _ (by omega) (by omega)
    rw [capAt_cons] at hcap
    have hcr : 0 ≤ capAt rest turns := capAt_nonneg rest turns
    rw [List.foldl_cons]
    by_cases hc : 0 ≤ turns - l
    · have hif : (if 0 ≤ turns - l then turns - l + 1 else 0) = turns - l + 1 := if_pos hc
      rw [hif] at hcap
      rw [if_pos (by rw [hwr]; exact hc), hwr]
      have hwr2 : wrap (total + (turns - l + 1)) = total + (turns - l + 1) :=
        wrap_eq_self _ (by omega) (by omega)
      rw [hwr2, ih (total + (turns - l + 1)) (by omega) hrest ht1 ht2 (by omega),
        capAt_cons, hif]
      ring
    · have hif : (if 0 ≤ turns - l then turns - l + 1 else 0) = 0 := if_neg hc
      rw [hif] at hcap
      rw [if_neg (by rw [hwr]; exact hc),
        ih total htot hrest ht1 ht2 (by omega), capAt_cons, hif]
      ring

theorem capAtW_eq_capAt (lens : List Int) (turns : Int)
    (hl : ∀ l ∈ lens, 0 ≤ l ∧ l ≤ maxIntGo) (ht1 : 1 ≤ turns) (ht2 : turns ≤ maxIntGo)
    (hcap : capAt lens turns ≤ maxIntGo) :
    capAtW lens turns = capAt lens turns := by
  rw [capAtW, capAtW_go_eq turns lens 0 (le_refl 0) hl ht1 ht2 (by omega), zero_add]

theorem countTurnsAux_some_of_sat (ants : Int) (lens : List Int) :
    ∀ (fuel : Nat) (start T : Int), 1 ≤ start → start ≤ T → T ≤ maxIntGo →
      ants ≤ capAtW lens T → T < start + (fuel : Int) →
      ∃ T', countTurnsAux ants lens fuel start = some T' ∧ start ≤ T' ∧ T' ≤ T ∧
        ants ≤ capAtW lens T' ∧ ∀ U, start ≤ U → U < T' → ¬ ants ≤ capAtW lens U := by
  intro fuel
  induction fuel with
  | zero =>
    intro start T h1 h2 h3 h4 h5
    simp only [Nat.cast_zero] at h5
    omega
  | succ fuel ih =>
    intro start T h1 h2 h3 h4 h5
    rw [countTurnsAux]
    by_cases hs : ants ≤ capAtW lens start
    · rw [if_pos hs]
      exact ⟨start, rfl, le_refl _, h2, hs, fun U hU1 hU2 => absurd hU1 (by omega)⟩
    · rw [if_neg hs]
      have hM : maxIntGo = 9223372036854775807 := rfl
      have hne : start ≠ T := fun he => hs (he ▸ h4)
      have hw : wrap (start + 1) = start + 1 := wrap_eq_self _ (by omega) (by omega)
      rw [hw]
      have h5' : T < (start + 1) + (fuel : Int) := by push_cast at h5 ⊢; omega
      obtain ⟨T', hT', ha, hb, hc, hd⟩ := ih (start + 1) T (by omega) (by omega) h3 h4 h5'
      refine ⟨T', hT', by omega, hb, hc, fun U hU1 hU2 => ?_⟩
      rcases eq_or_lt_of_le hU1 with rfl | hlt
      · exact hs
      · exact hd U (by omega) hU2

theorem countTurnsAux_none_of (ants : Int) (lens : List Int)
    (h : ∀ t, ¬ ants ≤ capAtW lens t) :
    ∀ (fuel : Nat) (start : Int), countTurnsAux ants lens fuel start = none := by
  intro fuel
  induction fuel with
  | zero => intro start; rfl
  | succ fuel ih =>
    intro start
    rw [countTurnsAux, if_neg (h start)]
    exact ih _

/-- The wrapped scan agrees with the mathematical minimum whenever the
minimal ideal turn count `Tstar` lies in `[1, 2^63)` and no capacity
value along the way to it leaves the `int64` range: the accumulator
never wraps before the scan stops, so Go returns exactly `Tstar`. -/
theorem countTurns_of_ideal (ants : Int) (lens : List Int) (Tstar : Int)
    (hl : ∀ l ∈ lens, 0 ≤ l ∧ l ≤ maxIntGo)
    (h1 : 1 ≤ Tstar) (h2 : Tstar ≤ maxIntGo)
    (hsat : ants ≤ capAt lens Tstar)
    (hmin : ∀ U, 1 ≤ U → U < Tstar → capAt lens U < ants)
    (hbound : ∀ U, 1 ≤ U → U ≤ Tstar → capAt lens U ≤ maxIntGo) :
    countTurns ants lens = some Tstar := by
  have heq : ∀ U, 1 ≤ U → U ≤ Tstar → capAtW lens U = capAt lens U := fun U hU1 hU2 =>
    capAtW_eq_capAt lens U hl hU1 (le_trans hU2 h2) (hbound U hU1 hU2)
  have hsatW : ants ≤ capAtW lens Tstar := by
    rw [heq Tstar h1 (le_refl _)]
    exact hsat
  have hfuel : Tstar < 1 + ((18446744073709551616 : Nat) : Int) := by
    have hM : maxIntGo = 9223372036854775807 := rfl
    push_cast
    omega
  obtain ⟨T', hT', ha, hb, hc, _⟩ :=
    countTurnsAux_some_of_sat ants lens 18446744073709551616 1 Tstar
      (le_refl 1) h1 h2 hsatW hfuel
  have hTT : T' = Tstar := by
    by_contra hne
    have hlt : T' < Tstar := lt_of_le_of_ne hb hne
    have := hmin T' ha hlt
    rw [← heq T' ha (le_of_lt hlt)] at this
    omega
  rw [countTurns, hT', hTT]

/-- Wrap-free regime of the scan: hop counts at least 1 and at most `B`,
and (for a positive token count) `ants + B + 2·k` within the Go `int`
range, where `k` is the number of routes.  Within it the Go loop
terminates and returns the minimal ideal turn count, which stays
strictly below the `bestTurns` sentinel. -/
theorem countTurns_reg (ants : Int) (lens : List Int) (B : Int)
    (hne : lens ≠ []) (hl : ∀ l ∈ lens, 1 ≤ l ∧ l ≤ B)
    (hB : 1 ≤ B) (hBmax : B ≤ maxIntGo) (hkmax : (lens.length : Int) ≤ maxIntGo)
    (hsz : 1 ≤ ants → ants + B + 2 * (lens.length : Int) ≤ maxIntGo) :
    ∃ T, countTurns ants lens = some T ∧ 1 ≤ T ∧ T < maxIntGo ∧
      ants ≤ capAt lens T ∧ ∀ U, 1 ≤ U → U < T → capAt lens U < ants := by
  have hM : maxIntGo = 9223372036854775807 := rfl
  have hl' : ∀ l ∈ lens, 0 ≤ l ∧ l ≤ maxIntGo :=
    fun l hlm => ⟨by have := (hl l hlm).1; omega, le_trans (hl l hlm).2 hBmax⟩
  have hone : ∀ l ∈ lens, 1 ≤ l := fun l hlm => (hl l hlm).1
  by_cases hA : ants ≤ 0
  · refine ⟨1, ?_, le_refl 1, by omega, le_trans hA (capAt_nonneg lens 1),
      fun U h1 h2 => by omega⟩
    apply countTurns_of_ideal ants lens 1 hl' (le_refl 1) (by omega)
      (le_trans hA (capAt_nonneg lens 1)) (fun U h1 h2 => by omega)
    intro U h1 h2
    have hU : U = 1 := by omega
    subst hU
    exact le_trans (capAt_le_len_at_one lens hone) hkmax
  · push_neg at hA
    have hA1 : 1 ≤ ants := hA
    have hsz' := hsz hA1
    have hk1 : (1 : Int) ≤ (lens.length : Int) := by
      have : lens.length ≠ 0 := fun he => hne (List.eq_nil_of_length_eq_zero he)
      omega
    obtain ⟨l0, rest, rfl⟩ := List.exists_cons_of_ne_nil hne
    obtain ⟨hl01, hl0B⟩ := hl l0 (List.mem_cons_self l0 rest)
    obtain ⟨Tstar, h1s, hsats, hmins⟩ := ideal_min_exists ants (l0 :: rest)
      (List.cons_ne_nil l0 rest)
    have hsatT0 : ants ≤ capAt (l0 :: rest) (l0 + ants - 1) := by
      rw [capAt_cons]
      have hc : 0 ≤ (l0 + ants - 1) - l0 := by omega
      rw [if_pos hc]
      have := capAt_nonneg rest (l0 + ants - 1)
      omega
    have hTle : Tstar ≤ l0 + ants - 1 := by
      by_contra hgt
      have := hmins (l0 + ants - 1) (by omega) (by omega)
      omega
    have hT2 : Tstar ≤ maxIntGo := by omega
    have hcapTstar : capAt (l0 :: rest) Tstar ≤ ants + ((l0 :: rest).length : Int) - 1 := by
      rcases eq_or_lt_of_le h1s with he | h2s
    -- at Tstar = 1 the capacity is at most the number of routes
      · rw [← he]
        have := capAt_le_len_at_one (l0 :: rest) hone
        omega
      · have hstep := capAt_step (l0 :: rest) (Tstar - 1)
        rw [show Tstar - 1 + 1 = Tstar by ring] at hstep
        have := hmins (Tstar - 1) (by omega) (by omega)
        omega
    have hbound : ∀ U, 1 ≤ U → U ≤ Tstar → capAt (l0 :: rest) U ≤ maxIntGo := by
      intro U hU1 hU2
      have := capAt_mono_turns (l0 :: rest) U Tstar hU2
      omega
    refine ⟨Tstar, ?_, h1s, by omega, hsats, hmins⟩
    exact countTurns_of_ideal ants (l0 :: rest) Tstar hl' h1s hT2 hsats hmins hbound

/-- With a non-positive token count the scan exits on its very first
iteration (the wrapped capacity at turn 1 is the number of unit-hop
routes, which is non-negative), returning 1: no wrapping is ever
reached. -/
theorem countTurns_nonpos (ants : Int) (lens : List Int) (h : ants ≤ 0)
    (hl : ∀ l ∈ lens, 1 ≤ l ∧ l ≤ maxIntGo) (hk : (lens.length : Int) ≤ maxIntGo) :
    countTurns ants lens = some 1 := by
  have hM : maxIntGo = 9223372036854775807 := rfl
  apply countTurns_of_ideal ants lens 1
    (fun l hlm => ⟨by have := (hl l hlm).1; omega, (hl l hlm).2⟩)
    (le_refl 1) (by omega) (le_trans h (capAt_nonneg lens 1))
    (fun U h1 h2 => by omega)
  intro U h1 h2
  have hU : U = 1 := by omega
  subst hU
  exact le_trans (capAt_le_len_at_one lens (fun l hlm => (hl l hlm).1)) hk

/-- Minimal turn count for a single route of hop count L ≥ 1:
`L + ants - 1` departure windows are needed for `ants ≥ 1` tokens,
provided that value is representable (otherwise the wrapped scan does
not behave like the ideal one). -/
theorem countTurns_single (ants L : Int) (ha : 1 ≤ ants) (hL : 1 ≤ L)
    (hmax : L + ants - 1 ≤ maxIntGo) :
    countTurns ants [L] = some (L + ants - 1) := by
  have hM : maxIntGo = 9223372036854775807 := rfl
  have hcap : ∀ T : Int, capAt [L] T = if 0 ≤ T - L then T - L + 1 else 0 := by
    intro T
    rw [capAt_cons, capAt_nil, add_zero]
  apply countTurns_of_ideal ants [L] (L + ants - 1)
  · intro l hlm
    have hlL : l = L := by simpa using hlm
    subst hlL
    omega
  · omega
  · exact hmax
  · rw [hcap]; split <;> omega
  · intro U h1 h2; rw [hcap]; split <;> omega
  · intro U h1 h2; rw [hcap]; split <;> omega

/-- One direct route of hop count 1 at the maximal token count: the
scan stays wrap-free (the capacity at turn T is exactly T) and stops
exactly at the sentinel value. -/
theorem countTurns_one_maxInt : countTurns maxIntGo [1] = some maxIntGo := by
  have h := countTurns_single maxIntGo 1 (by norm_num [maxIntGo]) (le_refl 1)
    (by norm_num [maxIntGo])
  rwa [show (1 : Int) + maxIntGo - 1 = maxIntGo by ring] at h

/-- Two unit-hop routes: whatever the (wrapped) turn counter is, the
wrapped accumulator is twice a wrapped value plus two — an even number —
so it can never reach the odd sentinel `2^63 - 1`, the only `int64`
value that is at least `2^63 - 1`. -/
theorem capAtW_ones_even (t : Int) : ¬ maxIntGo ≤ capAtW [1, 1] t := by
  have hM : maxIntGo = 9223372036854775807 := rfl
  simp only [capAtW, List.foldl_cons, List.foldl_nil]
  by_cases hc : 0 ≤ wrap (t - 1)
  · rw [if_pos hc, if_pos hc]
    obtain ⟨hr1a, hr1b, k1, hk1⟩ := wrap_spec (t - 1)
    obtain ⟨hr2a, hr2b, k2, hk2⟩ := wrap_spec (0 + (wrap (t - 1) + 1))
    obtain ⟨hr3a, hr3b, k3, hk3⟩ :=
      wrap_spec (wrap (0 + (wrap (t - 1) + 1)) + (wrap (t - 1) + 1))
    omega
  · rw [if_neg hc, if_neg hc]
    omega

/-- At token count `2^63 - 1` the scan over two unit-hop routes never
reaches its target: the Go loop runs forever. -/
theorem countTurns_ones_none : countTurns maxIntGo [1, 1] = none := by
  rw [countTurns]
  exact countTurnsAux_none_of maxIntGo [1, 1] (fun t => capAtW_ones_even t) _ _

set_option maxHeartbeats 4000000 in
/-- The seven-route fan with the minimal hop lowered to 1: at every
value of the wrapped turn counter the wrapped accumulator misses
`2^63 - 1`, the only `int64` value at least `2^63 - 1`; in the main
branch it is congruent to `7·s + 1` mod `2^64` with `s` in `[1, 2^63)`,
and `7·s + 1 = 2^63 - 1 + 2^64·m` has no such solution. -/
theorem capAtW_fan_never (t : Int) : ¬ maxIntGo ≤ capAtW [1, 2, 2, 2, 2, 2, 2] t := by
  have hM : maxIntGo = 9223372036854775807 := rfl
  simp only [capAtW, List.foldl_cons, List.foldl_nil]
  obtain ⟨hw1a, hw1b, k1, hk1⟩ := wrap_spec (t - 1)
  obtain ⟨hw2a, hw2b, k2, hk2⟩ := wrap_spec (t - 2)
  by_cases h1 : 0 ≤ wrap (t - 1) <;> by_cases h2 : 0 ≤ wrap (t - 2)
  · simp only [if_pos h1, if_pos h2]
    generalize hs1 : wrap (t - 1) = w1 at *
    generalize hs2 : wrap (t - 2) = w2 at *
    have hw12 : w1 = w2 + 1 := by omega
    clear hk1 hk2 hs1 hs2
    obtain ⟨ha3, hb3, k3, hk3⟩ := wrap_spec (0 + (w1 + 1))
    generalize hE1 : wrap (0 + (w1 + 1)) = E1 at *
    obtain ⟨ha4, hb4, k4, hk4⟩ := wrap_spec (E1 + (w2 + 1))
    generalize hE2 : wrap (E1 + (w2 + 1)) = E2 at *
    obtain ⟨ha5, hb5, k5, hk5⟩ := wrap_spec (E2 + (w2 + 1))
    generalize hE3 : wrap (E2 + (w2 + 1)) = E3 at *
    obtain ⟨ha6, hb6, k6, hk6⟩ := wrap_spec (E3 + (w2 + 1))
    generalize hE4 : wrap (E3 + (w2 + 1)) = E4 at *
    obtain ⟨ha7, hb7, k7, hk7⟩ := wrap_spec (E4 + (w2 + 1))
    generalize hE5 : wrap (E4 + (w2 + 1)) = E5 at *
    obtain ⟨ha8, hb8, k8, hk8⟩ := wrap_spec (E5 + (w2 + 1))
    generalize hE6 : wrap (E5 + (w2 + 1)) = E6 at *
    obtain ⟨ha9, hb9, k9, hk9⟩ := wrap_spec (E6 + (w2 + 1))
    generalize hE7 : wrap (E6 + (w2 + 1)) = E7 at *
    have hkey : E7 = 7 * w2 + 8 -
        18446744073709551616 * (k3 + k4 + k5 + k6 + k7 + k8 + k9) := by
      rw [hk9, hk8, hk7, hk6, hk5, hk4, hk3, hw12]
      ring
    obtain ⟨K, hK⟩ : ∃ K, E7 = 7 * w2 + 8 - 18446744073709551616 * K :=
      ⟨k3 + k4 + k5 + k6 + k7 + k8 + k9, hkey⟩
    clear hkey hk3 hk4 hk5 hk6 hk7 hk8 hk9 ha3 hb3 ha4 hb4 ha5 hb5 ha6 hb6 ha7 hb7
      ha8 hb8 hE1 hE2 hE3 hE4 hE5 hE6 hE7 hw12 h1 hw1a hw1b
    intro hcon
    have hprod : 18446744073709551616 * K = 7 * w2 + 8 - E7 := by rw [hK]; ring
    have hK0 : 0 ≤ K := by
      by_contra hneg
      push_neg at hneg
      have h1' : K ≤ -1 := by
        have := Int.lt_iff_add_one_le.mp hneg
        linarith
      have h2' : 18446744073709551616 * K ≤ 18446744073709551616 * (-1) :=
        mul_le_mul_of_nonneg_left h1' (by norm_num)
      linarith
    have hK4 : K ≤ 4 := by
      by_contra hneg
      push_neg at hneg
      have h1' : (5 : Int) ≤ K := by
        have := Int.lt_iff_add_one_le.mp hneg
        linarith
      have h2' : 18446744073709551616 * 5 ≤ 18446744073709551616 * K :=
        mul_le_mul_of_nonneg_left h1' (by norm_num)
      linarith
    have hKc : K = 0 ∨ K = 1 ∨ K = 2 ∨ K = 3 ∨ K = 4 := by
      clear hprod hK hcon
      omega
    rcases hKc with hc | hc | hc | hc | hc <;> subst hc <;> omega
  · simp only [if_pos h1, if_neg h2]
    generalize hs1 : wrap (t - 1) = w1 at *
    generalize hs2 : wrap (t - 2) = w2 at *
    have hw1v : w1 = 0 := by omega
    clear hk1 hk2 hs1 hs2
    obtain ⟨ha3, hb3, k3, hk3⟩ := wrap_spec (0 + (w1 + 1))
    omega
  · simp only [if_neg h1, if_pos h2]
    generalize hs1 : wrap (t - 1) = w1 at *
    generalize hs2 : wrap (t - 2) = w2 at *
    have hw2v : w2 = 9223372036854775807 := by omega
    clear hk1 hk2 hs1 hs2
    obtain ⟨ha3, hb3, k3, hk3⟩ := wrap_spec (0 + (w2 + 1))
    generalize hF1 : wrap (0 + (w2 + 1)) = F1 at *
    have hv1 : F1 = -9223372036854775808 := by omega
    obtain ⟨ha4, hb4, k4, hk4⟩ := wrap_spec (F1 + (w2 + 1))
    generalize hF2 : wrap (F1 + (w2 + 1)) = F2 at *
    have hv2 : F2 = 0 := by omega
    obtain ⟨ha5, hb5, k5, hk5⟩ := wrap_spec (F2 + (w2 + 1))
    generalize hF3 : wrap (F2 + (w2 + 1)) = F3 at *
    have hv3 : F3 = -9223372036854775808 := by omega
    obtain ⟨ha6, hb6, k6, hk6⟩ := wrap_spec (F3 + (w2 + 1))
    generalize hF4 : wrap (F3 + (w2 + 1)) = F4 at *
    have hv4 : F4 = 0 := by omega
    obtain ⟨ha7, hb7, k7, hk7⟩ := wrap_spec (F4 + (w2 + 1))
    generalize hF5 : wrap (F4 + (w2 + 1)) = F5 at *
    have hv5 : F5 = -9223372036854775808 := by omega
    obtain ⟨ha8, hb8, k8, hk8⟩ := wrap_spec (F5 + (w2 + 1))
    generalize hF6 : wrap (F5 + (w2 + 1)) = F6 at *
    have hv6 : F6 = 0 := by omega
    omega
  · simp only [if_neg h1, if_neg h2]
    omega

/-- At token count `2^63 - 1` the scan over `[1, 2, 2, 2, 2, 2, 2]`
never reaches its target: the Go loop runs forever. -/
theorem countTurns_fan_none : countTurns maxIntGo [1, 2, 2, 2, 2, 2, 2] = none := by
  rw [countTurns]
  exact countTurnsAux_none_of maxIntGo [1, 2, 2, 2, 2, 2, 2]
    (fun t => capAtW_fan_never t) _ _

theorem capAt_sevens (t : Int) :
    capAt [2, 2, 2, 2, 2, 2, 2] t = if 0 ≤ t - 2 then 7 * (t - 1) else 0 := by
  by_cases hc : 0 ≤ t - 2
  · simp only [capAt_cons, capAt_nil, if_pos hc]
    omega
  · simp only [capAt_cons, capAt_nil, if_neg hc]
    omega

/-- Seven routes of hop count 2 at the maximal token count: the
capacity at turn T is `7·(T - 1)`, which stays within `int64` up to the
exit turn because `7` divides `2^63 - 1` exactly; the scan is wrap-free
and returns `(2^63 - 1)/7 + 1`. -/
theorem countTurns_sevens :
    countTurns maxIntGo [2, 2, 2, 2, 2, 2, 2] = some 1317624576693539402 := by
  have hM : maxIntGo = 9223372036854775807 := rfl
  apply countTurns_of_ideal maxIntGo [2, 2, 2, 2, 2, 2, 2] 1317624576693539402
  · intro l hlm
    have hl2 : l = 2 := by simpa using hlm
    subst hl2
    omega
  · omega
  · omega
  · rw [capAt_sevens]
    split <;> omega
  · intro U h1 h2
    rw [capAt_sevens]
    split <;> omega
  · intro U h1 h2
    rw [capAt_sevens]
    split <;> omega

/-- C1 counterexample: at token count `2^63 - 1` (a legal Go `int`
value, at least 1) and the non-empty hop list `[1, 1]`, the Go scan
never returns: the wrapped accumulator `total` is always even, while
the only `int64` value satisfying `total >= 2^63 - 1` is the odd
`2^63 - 1` itself, so the claimed minimal T is never found — the claim
that `countTurns` returns the minimum feasible T for every `A ≥ 1` and
non-empty `lens` is false of the program. -/
theorem claim_C1_counterexample :
    countTurns maxIntGo [1, 1] = none ∧ (1 : Int) ≤ maxIntGo ∧
      ([1, 1] : List Int) ≠ [] :=
  ⟨countTurns_ones_none, by decide, by decide⟩

/-- C1 as amended: in the wrap-free regime — hop counts between 1 and
`B` and `A + B + 2·k` within the Go `int` range, `k` the number of
routes, conditions every real colony instance satisfies — `countTurns`
returns the minimum integer T ≥ 1 such that the summed capacity
`Σ max(0, T - Li + 1)` (that is `capAt lens T`) reaches A.  The
minimality conjunct in its `≤` form contains the boundary case: when A
equals the total turn-T capacity exactly, the result is T and never
T + 1.  Outside the regime the 64-bit accumulator wraps and the scan
can run forever, see the counterexample. -/
theorem claim_C1_countTurns_minimal (A B : Int) (lens : List Int)
    (_hA : 1 ≤ A) (hlens : lens ≠ [])
    (hl : ∀ l ∈ lens, 1 ≤ l ∧ l ≤ B) (hB : 1 ≤ B) (hBmax : B ≤ maxIntGo)
    (hkmax : (lens.length : Int) ≤ maxIntGo)
    (hsz : A + B + 2 * (lens.length : Int) ≤ maxIntGo) :
    ∃ T, countTurns A lens = some T ∧ 1 ≤ T ∧ A ≤ capAt lens T ∧
      ∀ T', 1 ≤ T' → A ≤ capAt lens T' → T ≤ T' := by
  obtain ⟨T, hT, h1, _, h2, h3⟩ :=
    countTurns_reg A lens B hlens hl hB hBmax hkmax (fun _ => hsz)
  refine ⟨T, hT, h1, h2, fun T' hT1 hT2 => ?_⟩
  by_contra hlt
  have := h3 T' hT1 (by omega)
  omega

theorem claim_C1_countTurns_minimal_witness :
    ∃ T, countTurns 5 [2, 3] = some T ∧ 1 ≤ T ∧ (5 : Int) ≤ capAt [2, 3] T ∧
      ∀ T', 1 ≤ T' → (5 : Int) ≤ capAt [2, 3] T' → T ≤ T' :=
  claim_C1_countTurns_minimal 5 3 [2, 3] (by decide) (by decide)
    (by decide) (by decide) (by decide) (by decide) (by decide)

/-- C7 counterexample: `countTurns` is not non-increasing in the
minimum element of `lens` for fixed A.  With `rest = [2, 2, 2, 2, 2, 2]`
and token count `2^63 - 1`, the list `2 :: rest` (minimum 2) makes the
scan return `(2^63 - 1)/7 + 1`, but lowering the minimum to 1 —
`1 :: rest` — makes the Go loop run forever (the wrapped accumulator
never equals `2^63 - 1`, the only `int64` value at least the target):
the turn count does not stay at most `(2^63 - 1)/7 + 1`; no value is
returned at all. -/
theorem claim_C7_counterexample :
    countTurns maxIntGo [2, 2, 2, 2, 2, 2, 2] = some 1317624576693539402 ∧
    countTurns maxIntGo [1, 2, 2, 2, 2, 2, 2] = none ∧
    (1 : Int) ≤ 2 ∧ (∀ x ∈ ([2, 2, 2, 2, 2, 2] : List Int), (2 : Int) ≤ x) :=
  ⟨countTurns_sevens, countTurns_fan_none, by decide, by decide⟩

/-- C7 as amended: in the wrap-free regime (hop counts between 1 and
`B`, token counts positive only if `A + B + 2·k` stays within the Go
`int` range) `countTurns` is monotone: non-decreasing in the token
count A for fixed lens, and non-increasing in the minimum element of
lens for fixed A (replacing the minimum element `b` of `b :: rest` by a
smaller value `a ≥ 1` cannot increase the required turn count).
Outside the regime lowering the minimum hop can turn a terminating
scan into an infinite loop, see the counterexample. -/
theorem claim_C7_countTurns_monotone :
    (∀ (A A' B : Int) (lens : List Int), lens ≠ [] →
        (∀ l ∈ lens, 1 ≤ l ∧ l ≤ B) → 1 ≤ B → B ≤ maxIntGo →
        (lens.length : Int) ≤ maxIntGo →
        A ≤ A' → (1 ≤ A' → A' + B + 2 * (lens.length : Int) ≤ maxIntGo) →
        ∃ TA TA', countTurns A lens = some TA ∧ countTurns A' lens = some TA' ∧
          TA ≤ TA') ∧
    (∀ (a b A B : Int) (rest : List Int), a ≤ b → (∀ x ∈ rest, b ≤ x) →
        1 ≤ a → b ≤ B → (∀ x ∈ rest, x ≤ B) → 1 ≤ B → B ≤ maxIntGo →
        ((a :: rest).length : Int) ≤ maxIntGo →
        (1 ≤ A → A + B + 2 * ((a :: rest).length : Int) ≤ maxIntGo) →
        ∃ Ta Tb, countTurns A (a :: rest) = some Ta ∧
          countTurns A (b :: rest) = some Tb ∧ Ta ≤ Tb) := by
  constructor
  · intro A A' B lens hne hl hB hBmax hkmax hle hsz
    obtain ⟨TA, hA, h1, _, h2, h3⟩ := countTurns_reg A lens B hne hl hB hBmax hkmax
      (fun ha => by have := hsz (by omega); omega)
    obtain ⟨TA', hA', h1', _, h2', _⟩ := countTurns_reg A' lens B hne hl hB hBmax hkmax hsz
    refine ⟨TA, TA', hA, hA', ?_⟩
    by_contra hgt
    have := h3 TA' h1' (by omega)
    omega
  · intro a b A B rest hab hbmin ha1 hbB hrB hB hBmax hkmax hsz
    have hla : ∀ l ∈ a :: rest, 1 ≤ l ∧ l ≤ B := by
      intro l hlm
      rcases List.mem_cons.1 hlm with rfl | hlr
      · exact ⟨ha1, by omega⟩
      · have := hbmin l hlr
        exact ⟨by omega, hrB l hlr⟩
    have hlb : ∀ l ∈ b :: rest, 1 ≤ l ∧ l ≤ B := by
      intro l hlm
      rcases List.mem_cons.1 hlm with rfl | hlr
      · exact ⟨by omega, hbB⟩
      · have := hbmin l hlr
        exact ⟨by omega, hrB l hlr⟩
    have hkb : ((b :: rest).length : Int) ≤ maxIntGo := by
      simpa using hkmax
    have hszb : 1 ≤ A → A + B + 2 * ((b :: rest).length : Int) ≤ maxIntGo := by
      intro hA1
      have := hsz hA1
      simp only [List.length_cons] at this ⊢
      omega
    obtain ⟨Ta, hTa, h1a, _, h2a, h3a⟩ := countTurns_reg A (a :: rest) B
      (List.cons_ne_nil a rest) hla hB hBmax hkmax hsz
    obtain ⟨Tb, hTb, h1b, _, h2b, _⟩ := countTurns_reg A (b :: rest) B
      (List.cons_ne_nil b rest) hlb hB hBmax hkb hszb
    refine ⟨Ta, Tb, hTa, hTb, ?_⟩
    by_contra hgt
    have hmono := capAt_mono_head a b rest Tb hab
    have := h3a Tb h1b (by omega)
    omega

theorem claim_C7_countTurns_monotone_witness :
    (∃ TA TA', countTurns 2 [1] = some TA ∧ countTurns 5 [1] = some TA' ∧ TA ≤ TA') ∧
    (∃ Ta Tb, countTurns 4 [1, 3] = some Ta ∧ countTurns 4 [2, 3] = some Tb ∧
      Ta ≤ Tb) :=
  ⟨claim_C7_countTurns_monotone.1 2 5 1 [1] (by decide) (by decide) (by decide)
      (by decide) (by decide) (by decide) (by decide),
   claim_C7_countTurns_monotone.2 1 2 4 3 [3] (by decide) (by decide) (by decide)
      (by decide) (by decide) (by decide) (by decide) (by decide) (by decide)⟩

/-- C8 as amended: in the wrap-free regime (non-empty hop lists with
entries between 1 and `B`, and — for positive token counts —
`ants + B + 2·k` within the Go `int` range) the linear scan terminates:
there is a turn count T ≥ 1 whose accumulated capacity reaches the
token count, and `countTurns` returns it.  Unconditional termination is
false of the program: with a 64-bit wrapped accumulator the scan can
run forever on inputs `bestDisjointPaths` really passes, see the
counterexample. -/
theorem claim_C8_countTurns_terminates (ants B : Int) (lens : List Int)
    (h : lens ≠ []) (hl : ∀ l ∈ lens, 1 ≤ l ∧ l ≤ B) (hB : 1 ≤ B)
    (hBmax : B ≤ maxIntGo) (hkmax : (lens.length : Int) ≤ maxIntGo)
    (hsz : 1 ≤ ants → ants + B + 2 * (lens.length : Int) ≤ maxIntGo) :
    ∃ T, countTurns ants lens = some T ∧ 1 ≤ T ∧ ants ≤ capAt lens T := by
  obtain ⟨T, hT, h1, _, h2, _⟩ := countTurns_reg ants lens B h hl hB hBmax hkmax hsz
  exact ⟨T, hT, h1, h2⟩

theorem claim_C8_countTurns_terminates_witness :
    ∃ T, countTurns 7 [3] = some T ∧ 1 ≤ T ∧ (7 : Int) ≤ capAt [3] T :=
  claim_C8_countTurns_terminates 7 3 [3] (by decide) (by decide) (by decide)
    (by decide) (by decide) (by decide)

theorem recE_eq_of_ok (ants : Int) : ∀ (suffix : List (List Nat)) (i : Nat)
    (cur : List (List Nat)) (idxs used : List Nat) (st st' : BestSt),
    recE ants suffix i cur idxs used st = .ok st' →
    recP ants suffix i cur idxs used st = st' := by
  intro suffix
  induction suffix with
  | nil =>
    intro i cur idxs used st st' h
    rw [recE] at h
    rw [recP]
    by_cases hc : cur = []
    · rw [if_pos hc] at h
      rw [offer, if_pos hc]
      injection h
    · rw [if_neg hc] at h
      cases hct : countTurns ants (lensOf cur) with
      | none =>
        rw [hct] at h
        exact absurd h (by simp)
      | some t =>
        rw [hct] at h
        injection h
  | cons p rest ih =>
    intro i cur idxs used st st' h
    rw [recE] at h
    rw [recP]
    cases hskip : recE ants rest (i + 1) cur idxs used st with
    | error e =>
      rw [hskip] at h
      exact absurd h (by simp)
    | ok st1 =>
      rw [hskip] at h
      simp only [] at h
      have hskipP : recP ants rest (i + 1) cur idxs used st = st1 :=
        ih (i + 1) cur idxs used st st1 hskip
      by_cases hlen : 2 ≤ p.length
      · rw [if_pos hlen] at h
        by_cases hd : disjFrom p used
        · rw [if_pos hd] at h
          rw [if_pos hd, hskipP]
          exact ih (i + 1) (cur ++ [p]) (idxs ++ [i]) (used ++ interiorRooms p) st1 st' h
        · rw [if_neg hd] at h
          rw [if_neg hd, hskipP]
          injection h
      · rw [if_neg hlen] at h
        exact absurd h (by simp)

theorem recE_no_panic (ants : Int) : ∀ (suffix : List (List Nat)) (i : Nat)
    (cur : List (List Nat)) (idxs used : List Nat) (st : BestSt),
    (∀ p ∈ suffix, 2 ≤ p.length) →
    recE ants suffix i cur idxs used st ≠ .error .panic := by
  intro suffix
  induction suffix with
  | nil =>
    intro i cur idxs used st _ h
    rw [recE] at h
    by_cases hc : cur = []
    · rw [if_pos hc] at h
      exact absurd h (by simp)
    · rw [if_neg hc] at h
      cases hct : countTurns ants (lensOf cur) with
      | none =>
        rw [hct] at h
        injection h with h'
        exact absurd h'.symm (by simp)
      | some t =>
        rw [hct] at h
        exact absurd h (by simp)
  | cons p rest ih =>
    intro i cur idxs used st hlen h
    rw [recE] at h
    cases hskip : recE ants rest (i + 1) cur idxs used st with
    | error e =>
      rw [hskip] at h
      injection h with h'
      subst h'
      exact ih (i + 1) cur idxs used st
        (fun q hq => hlen q (List.mem_cons_of_mem p hq)) hskip
    | ok st1 =>
      rw [hskip] at h
      simp only [] at h
      rw [if_pos (hlen p (List.mem_cons_self p rest))] at h
      by_cases hd : disjFrom p used
      · rw [if_pos hd] at h
        exact ih (i + 1) (cur ++ [p]) (idxs ++ [i]) (used ++ interiorRooms p) st1
          (fun q hq => hlen q (List.mem_cons_of_mem p hq)) h
      · rw [if_neg hd] at h
        exact absurd h (by simp)

theorem recE_eq_ok (ants : Int) : ∀ (suffix : List (List Nat)) (i : Nat)
    (cur : List (List Nat)) (idxs used : List Nat) (st : BestSt),
    (∀ p ∈ suffix, 2 ≤ p.length) →
    (∀ ci : List (List Nat) × List Nat, ci ∈ combosE suffix i cur idxs used →
      ci.1 ≠ [] → (countTurns ants (lensOf ci.1)).isSome = true) →
    recE ants suffix i cur idxs used st = .ok (recP ants suffix i cur idxs used st) := by
  intro suffix
  induction suffix with
  | nil =>
    intro i cur idxs used st _ hterm
    rw [recE, recP]
    by_cases hc : cur = []
    · rw [if_pos hc, offer, if_pos hc]
    · rw [if_neg hc]
      have hs := hterm (cur, idxs)
        (by rw [combosE]; exact List.mem_singleton_self _) hc
      cases hct : countTurns ants (lensOf cur) with
      | none =>
        rw [hct] at hs
        exact absurd hs (by simp)
      | some t => rfl
  | cons p rest ih =>
    intro i cur idxs used st hlen hterm
    have hlrest : ∀ q ∈ rest, 2 ≤ q.length :=
      fun q hq => hlen q (List.mem_cons_of_mem p hq)
    have htermL : ∀ ci : List (List Nat) × List Nat,
        ci ∈ combosE rest (i + 1) cur idxs used → ci.1 ≠ [] →
        (countTurns ants (lensOf ci.1)).isSome = true := by
      intro ci hci hne
      refine hterm ci ?_ hne
      rw [combosE]
      exact List.mem_append_left _ hci
    rw [recE, ih (i + 1) cur idxs used st hlrest htermL]
    simp only []
    rw [if_pos (hlen p (List.mem_cons_self p rest)), recP]
    by_cases hd : disjFrom p used
    · have htermR : ∀ ci : List (List Nat) × List Nat,
          ci ∈ combosE rest (i + 1) (cur ++ [p]) (idxs ++ [i])
            (used ++ interiorRooms p) → ci.1 ≠ [] →
          (countTurns ants (lensOf ci.1)).isSome = true := by
        intro ci hci hne
        refine hterm ci ?_ hne
        rw [combosE, if_pos hd]
        exact List.mem_append_right _ hci
      rw [if_pos hd, if_pos hd]
      exact ih (i + 1) (cur ++ [p]) (idxs ++ [i]) (used ++ interiorRooms p)
        (recP ants rest (i + 1) cur idxs used st) hlrest htermR
    · rw [if_neg hd, if_neg hd]

theorem insRoute_perm (p : List Nat) (l : List (List Nat)) :
    List.Perm (insRoute p l) (p :: l) := by
  induction l with
  | nil => rfl
  | cons q t ih =>
    rw [insRoute]
    split
    · rfl
    · exact (ih.cons q).trans (List.Perm.swap p q t)

theorem sortRoutes_perm (l : List (List Nat)) : List.Perm (sortRoutes l) l := by
  induction l with
  | nil => rfl
  | cons p t ih => exact (insRoute_perm p (sortRoutes t)).trans (ih.cons p)

theorem mem_insRoute (x p : List Nat) (l : List (List Nat)) :
    x ∈ insRoute p l ↔ x = p ∨ x ∈ l := by
  rw [(insRoute_perm p l).mem_iff, List.mem_cons]

theorem insRoute_sorted (p : List Nat) (l : List (List Nat))
    (h : List.Pairwise (fun a b : List Nat => a.length ≤ b.length) l) :
    List.Pairwise (fun a b : List Nat => a.length ≤ b.length) (insRoute p l) := by
  induction l with
  | nil => simp [insRoute]
  | cons q t ih =>
    rw [List.pairwise_cons] at h
    obtain ⟨hq, ht⟩ := h
    rw [insRoute]
    split
    · rename_i hpq
      exact List.pairwise_cons.2 ⟨fun x hx => by
        rcases List.mem_cons.1 hx with rfl | hxt
        · exact hpq
        · exact le_trans hpq (hq x hxt),
        List.pairwise_cons.2 ⟨hq, ht⟩⟩
    · rename_i hpq
      push_neg at hpq
      exact List.pairwise_cons.2 ⟨fun x hx => by
        rcases (mem_insRoute x p t).1 hx with rfl | hxt
        · omega
        · exact hq x hxt,
        ih ht⟩

theorem sortRoutes_sorted (l : List (List Nat)) :
    List.Pairwise (fun a b : List Nat => a.length ≤ b.length) (sortRoutes l) := by
  induction l with
  | nil => exact List.Pairwise.nil
  | cons p t ih => exact insRoute_sorted p (sortRoutes t) ih

theorem insRoute_filter (p : List Nat) (l : List (List Nat)) (n : Nat) :
    (insRoute p l).filter (fun q => decide (q.length = n)) =
      if p.length = n then p :: l.filter (fun q => decide (q.length = n))
      else l.filter (fun q => decide (q.length = n)) := by
  induction l with
  | nil =>
    rw [insRoute, List.filter]
    by_cases hp : p.length = n
    · simp [hp]
    · simp [hp]
  | cons q t ih =>
    rw [insRoute]
    split
    · rename_i hpq
      by_cases hp : p.length = n
      · simp [List.filter, hp]
      · simp [List.filter, hp]
    · rename_i hpq
      push_neg at hpq
      by_cases hp : p.length = n
      · have hq : ¬ q.length = n := by omega
        simp [List.filter, hq, ih, hp]
      · by_cases hq : q.length = n
        · simp [List.filter, hq, ih, hp]
        · simp [List.filter, hq, ih, hp]

theorem sortRoutes_filter (l : List (List Nat)) (n : Nat) :
    (sortRoutes l).filter (fun q => decide (q.length = n)) =
      l.filter (fun q => decide (q.length = n)) := by
  induction l with
  | nil => rfl
  | cons p t ih =>
    rw [sortRoutes, insRoute_filter]
    by_cases hp : p.length = n
    · simp [List.filter, hp, ih]
    · simp [List.filter, hp, ih]

/-- C6: the route sort performed by `FindPaths` before subset selection
(modelled by `sortRoutes`, the unique stable sort ascending by length)
produces a permutation of its input that is non-decreasing in route
length, and routes of any given length keep their relative discovery
order (filtering the output by each length gives exactly the filtered
input, which is the stability property). -/
theorem claim_C6_sort_stable (all : List (List Nat)) :
    List.Perm (sortRoutes all) all ∧
    List.Pairwise (fun a b : List Nat => a.length ≤ b.length) (sortRoutes all) ∧
    ∀ n, (sortRoutes all).filter (fun q => decide (q.length = n)) =
      all.filter (fun q => decide (q.length = n)) :=
  ⟨sortRoutes_perm all, sortRoutes_sorted all, fun n => sortRoutes_filter all n⟩

theorem dfs_mono (g : Graph) (limit : Nat) : ∀ fuel,
    (∀ r visited path res, ∃ t, dfsAux g limit fuel r visited path res = res ++ t) ∧
    (∀ nbs visited path res, ∃ t, dfsNbrs g limit fuel nbs visited path res = res ++ t) := by
  intro fuel
  induction fuel with
  | zero =>
    constructor
    · intro r v p res
      exact ⟨[], by simp [dfsAux]⟩
    · intro nbs
      induction nbs with
      | nil => intro v p res; exact ⟨[], by simp [dfsNbrs]⟩
      | cons nb rest ih =>
        intro v p res
        obtain ⟨t, ht⟩ := ih v p res
        refine ⟨t, ?_⟩
        simp only [dfsNbrs, dfsAux, ite_self]
        exact ht
  | succ fuel ihf =>
    have haux : ∀ r visited path res, ∃ t,
        dfsAux g limit (fuel + 1) r visited path res = res ++ t := by
      intro r v p res
      simp only [dfsAux]
      by_cases hcap : limit ≤ res.length
      · exact ⟨[], by rw [if_pos hcap, List.append_nil]⟩
      · rw [if_neg hcap]
        by_cases hfin : r = g.finish
        · exact ⟨[p ++ [r]], by rw [if_pos hfin]⟩
        · rw [if_neg hfin]
          exact ihf.2 (g.links r) (r :: v) (p ++ [r]) res
    refine ⟨haux, ?_⟩
    intro nbs
    induction nbs with
    | nil => intro v p res; exact ⟨[], by simp [dfsNbrs]⟩
    | cons nb rest ih =>
      intro v p res
      by_cases hv : nb ∈ v
      · obtain ⟨t, ht⟩ := ih v p res
        refine ⟨t, ?_⟩
        simp only [dfsNbrs, if_pos hv]
        exact ht
      · obtain ⟨t1, ht1⟩ := haux nb v p res
        obtain ⟨t2, ht2⟩ := ih v p (res ++ t1)
        refine ⟨t1 ++ t2, ?_⟩
        simp only [dfsNbrs, if_neg hv]
        rw [ht1, ht2, List.append_assoc]

theorem dfs_length_le (g : Graph) (limit : Nat) : ∀ fuel,
    (∀ r visited path res, res.length ≤ limit →
      (dfsAux g limit fuel r visited path res).length ≤ limit) ∧
    (∀ nbs visited path res, res.length ≤ limit →
      (dfsNbrs g limit fuel nbs visited path res).length ≤ limit) := by
  intro fuel
  induction fuel with
  | zero =>
    constructor
    · intro r v p res h; simpa [dfsAux] using h
    · intro nbs
      induction nbs with
      | nil => intro v p res h; simpa [dfsNbrs] using h
      | cons nb rest ih =>
        intro v p res h
        simp only [dfsNbrs, dfsAux, ite_self]
        exact ih v p res h
  | succ fuel ihf =>
    have haux : ∀ r visited path res, res.length ≤ limit →
        (dfsAux g limit (fuel + 1) r visited path res).length ≤ limit := by
      intro r v p res h
      simp only [dfsAux]
      by_cases hcap : limit ≤ res.length
      · rw [if_pos hcap]; exact h
      · rw [if_neg hcap]
        by_cases hfin : r = g.finish
        · rw [if_pos hfin]; simp; omega
        · rw [if_neg hfin]
          exact ihf.2 (g.links r) (r :: v) (p ++ [r]) res h
    refine ⟨haux, ?_⟩
    intro nbs
    induction nbs with
    | nil => intro v p res h; simpa [dfsNbrs] using h
    | cons nb rest ih =>
      intro v p res h
      simp only [dfsNbrs]
      by_cases hv : nb ∈ v
      · rw [if_pos hv]; exact ih v p res h
      · rw [if_neg hv]
        exact ih v p _ (haux nb v p res h)

theorem auxInv_to_nbrsInv (g : Graph) (r : Nat) (visited path : List Nat)
    (hfin : r ≠ g.finish) (h : auxInv g r visited path) :
    nbrsInv g (g.links r) (r :: visited) (path ++ [r]) := by
  obtain ⟨h1, h2, h3, h4, h5, h6⟩ := h
  refine ⟨fun x => ?_, ?_, h4, h5, ?_, r, path, rfl, fun nb hnb => hnb⟩
  · simp only [List.mem_cons, List.mem_append, List.mem_singleton, h1 x]
    tauto
  · rw [List.nodup_append]
    exact ⟨h2, List.nodup_singleton r, fun x hx hx' => h3 ((List.mem_singleton.1 hx') ▸ hx)⟩
  · simp only [List.mem_append, List.mem_singleton]
    rintro (hf | hf)
    · exact h6 hf
    · exact hfin hf.symm

theorem nbrsInv_tail (g : Graph) (nb : Nat) (nbs visited path : List Nat)
    (h : nbrsInv g (nb :: nbs) visited path) : nbrsInv g nbs visited path := by
  obtain ⟨h1, h2, h3, h4, h5, r, t, hrt, hlinks⟩ := h
  exact ⟨h1, h2, h3, h4, h5, r, t, hrt, fun x hx => hlinks x (List.mem_cons_of_mem nb hx)⟩

theorem nbrsInv_to_auxInv (g : Graph) (nb : Nat) (nbs visited path : List Nat)
    (hnb : nb ∈ nbs) (hv : nb ∉ visited) (h : nbrsInv g nbs visited path) :
    auxInv g nb visited path := by
  obtain ⟨h1, h2, h3, h4, h5, r, t, hrt, hlinks⟩ := h
  have hpne : path ≠ [] := by rw [hrt]; simp
  refine ⟨h1, h2, fun hmem => hv ((h1 nb).2 hmem), ?_, ?_, h5⟩
  · rw [← h3]
    cases path with
    | nil => exact absurd rfl hpne
    | cons a t' => simp
  · rw [linked, List.chain'_append]
    refine ⟨h4, List.chain'_singleton nb, fun x hx y hy => ?_⟩
    have hlast : path.getLast? = some r := by rw [hrt]; exact List.getLast?_concat t
    rw [hlast] at hx
    simp only [Option.mem_def, Option.some.injEq] at hx
    simp only [List.head?_cons, Option.mem_def, Option.some.injEq] at hy
    subst hx; subst hy
    exact hlinks nb hnb

theorem dfs_routeOK (g : Graph) (limit : Nat) : ∀ fuel,
    (∀ r visited path res, auxInv g r visited path → (∀ p ∈ res, routeOK g p) →
      ∀ p ∈ dfsAux g limit fuel r visited path res, routeOK g p) ∧
    (∀ nbs visited path res, nbrsInv g nbs visited path → (∀ p ∈ res, routeOK g p) →
      ∀ p ∈ dfsNbrs g limit fuel nbs visited path res, routeOK g p) := by
  intro fuel
  induction fuel with
  | zero =>
    constructor
    · intro r v path res _ hres p hp
      rw [dfsAux] at hp
      exact hres p hp
    · intro nbs
      induction nbs with
      | nil =>
        intro v path res _ hres p hp
        rw [dfsNbrs] at hp
        exact hres p hp
      | cons nb rest ih =>
        intro v path res hinv hres p hp
        rw [dfsNbrs] at hp
        simp only [dfsAux, ite_self] at hp
        exact ih v path res (nbrsInv_tail g nb rest v path hinv) hres p hp
  | succ fuel ihf =>
    have haux : ∀ r visited path res, auxInv g r visited path → (∀ p ∈ res, routeOK g p) →
        ∀ p ∈ dfsAux g limit (fuel + 1) r visited path res, routeOK g p := by
      intro r v path res hinv hres p hp
      rw [dfsAux] at hp
      by_cases hcap : limit ≤ res.length
      · rw [if_pos hcap] at hp; exact hres p hp
      · rw [if_neg hcap] at hp
        by_cases hfin : r = g.finish
        · rw [if_pos hfin] at hp
          rcases List.mem_append.1 hp with hm | hm
          · exact hres p hm
          · obtain rfl := List.mem_singleton.1 hm
            obtain ⟨h1, h2, h3, h4, h5, h6⟩ := hinv
            refine ⟨h4, ?_, ?_, h5⟩
            · rw [List.getLast?_concat, hfin]
            · rw [List.nodup_append]
              exact ⟨h2, List.nodup_singleton r,
                fun x hx hx' => h3 ((List.mem_singleton.1 hx') ▸ hx)⟩
        · rw [if_neg hfin] at hp
          exact ihf.2 (g.links r) (r :: v) (path ++ [r]) res
            (auxInv_to_nbrsInv g r v path hfin hinv) hres p hp
    refine ⟨haux, ?_⟩
    intro nbs
    induction nbs with
    | nil =>
      intro v path res _ hres p hp
      rw [dfsNbrs] at hp
      exact hres p hp
    | cons nb rest ih =>
      intro v path res hinv hres p hp
      rw [dfsNbrs] at hp
      by_cases hv : nb ∈ v
      · rw [if_pos hv] at hp
        exact ih v path res (nbrsInv_tail g nb rest v path hinv) hres p hp
      · rw [if_neg hv] at hp
        have hres' : ∀ q ∈ dfsAux g limit (fuel + 1) nb v path res, routeOK g q :=
          haux nb v path res
            (nbrsInv_to_auxInv g nb (nb :: rest) v path (List.mem_cons_self nb rest) hv hinv)
            hres
        exact ih v path _ (nbrsInv_tail g nb rest v path hinv) hres' p hp

theorem allPaths_routeOK (g : Graph) (limit : Nat) :
    ∀ p ∈ allPaths g limit, routeOK g p := by
  have hinv : auxInv g g.start [] [] := by
    refine ⟨by simp, List.nodup_nil, by simp, by simp, ?_, by simp⟩
    exact List.chain'_singleton g.start
  exact (dfs_routeOK g limit (g.rooms.length + 1)).1 g.start [] [] []
    hinv (by intro p hp; exact absurd hp (List.not_mem_nil p))

theorem dfs_take (g : Graph) (L L' : Nat) (hLL : L ≤ L') : ∀ fuel,
    (∀ r v p resS resB, resS = resB.take L →
      dfsAux g L fuel r v p resS = (dfsAux g L' fuel r v p resB).take L) ∧
    (∀ nbs v p resS resB, resS = resB.take L →
      dfsNbrs g L fuel nbs v p resS = (dfsNbrs g L' fuel nbs v p resB).take L) := by
  intro fuel
  induction fuel with
  | zero =>
    constructor
    · intro r v p resS resB h
      simpa [dfsAux] using h
    · intro nbs
      induction nbs with
      | nil => intro v p resS resB h; simpa [dfsNbrs] using h
      | cons nb rest ih =>
        intro v p resS resB h
        simp only [dfsNbrs, dfsAux, ite_self]
        exact ih v p resS resB h
  | succ fuel ihf =>
    have haux : ∀ r v p resS resB, resS = resB.take L →
        dfsAux g L (fuel + 1) r v p resS = (dfsAux g L' (fuel + 1) r v p resB).take L := by
      intro r v p resS resB h
      have hlen0 : resS.length = min L resB.length := by rw [h, List.length_take]
      by_cases hcap : L ≤ resS.length
      · have hBlen : L ≤ resB.length := by omega
        obtain ⟨t, ht⟩ := (dfs_mono g L' (fuel + 1)).1 r v p resB
        rw [ht]
        conv_lhs => rw [dfsAux]
        rw [if_pos hcap, h, List.take_append_eq_append_take,
          Nat.sub_eq_zero_of_le hBlen, List.take_zero, List.append_nil]
      · have hBlt : resB.length < L := by omega
        have hEq : resS = resB := by
          rw [h, List.take_of_length_le (le_of_lt hBlt)]
        subst hEq
        have hcap' : ¬ L' ≤ resS.length := by omega
        conv_lhs => rw [dfsAux]
        conv_rhs => rw [dfsAux]
        rw [if_neg hcap, if_neg hcap']
        by_cases hfin : r = g.finish
        · rw [if_pos hfin, if_pos hfin]
          rw [List.take_of_length_le]
          simp
          omega
        · rw [if_neg hfin, if_neg hfin]
          exact ihf.2 (g.links r) (r :: v) (p ++ [r]) resS resS
            (by rw [List.take_of_length_le (le_of_lt hBlt)])
    refine ⟨haux, ?_⟩
    intro nbs
    induction nbs with
    | nil => intro v p resS resB h; simpa [dfsNbrs] using h
    | cons nb rest ih =>
      intro v p resS resB h
      conv_lhs => rw [dfsNbrs]
      conv_rhs => rw [dfsNbrs]
      by_cases hv : nb ∈ v
      · rw [if_pos hv, if_pos hv]
        exact ih v p resS resB h
      · rw [if_neg hv, if_neg hv]
        exact ih v p _ _ (haux nb v p resS resB h)

theorem allPaths_take (g : Graph) (L L' : Nat) (h : L ≤ L') :
    allPaths g L = (allPaths g L').take L :=
  (dfs_take g L L' h (g.rooms.length + 1)).1 g.start [] [] [] [] (by rw [List.take_nil])

theorem length_filter_imp (l : List Nat) (p q : Nat → Bool)
    (h : ∀ x, p x = true → q x = true) :
    (l.filter p).length ≤ (l.filter q).length := by
  induction l with
  | nil => simp
  | cons a t ih =>
    by_cases hp : p a = true
    · rw [List.filter_cons_of_pos hp, List.filter_cons_of_pos (h a hp)]
      simpa using ih
    · rw [List.filter_cons_of_neg (by simpa using hp)]
      by_cases hq : q a = true
      · rw [List.filter_cons_of_pos hq]
        simp only [List.length_cons]
        omega
      · rw [List.filter_cons_of_neg (by simpa using hq)]
        exact ih

theorem filter_notmem_cons_lt (l : List Nat) (r : Nat) (v : List Nat)
    (hnd : l.Nodup) (hr : r ∈ l) (hv : r ∉ v) :
    (l.filter (fun x => decide (x ∉ r :: v))).length <
      (l.filter (fun x => decide (x ∉ v))).length := by
  induction l with
  | nil => exact absurd hr (List.not_mem_nil r)
  | cons a t ih =>
    rw [List.nodup_cons] at hnd
    obtain ⟨hat, hndt⟩ := hnd
    rcases List.mem_cons.1 hr with rfl | hrt
    · rw [List.filter_cons_of_neg (by simp), List.filter_cons_of_pos (by simpa using hv)]
      have hle := length_filter_imp t (fun x => decide (x ∉ r :: v)) (fun x => decide (x ∉ v))
        (by intro x hx; simp only [decide_eq_true_eq] at hx ⊢
            exact fun hm => hx (List.mem_cons_of_mem r hm))
      simp only [List.length_cons]
      omega
    · have har : a ≠ r := fun he => hat (he ▸ hrt)
      by_cases hav : a ∈ v
      · rw [List.filter_cons_of_neg (by simp [hav]), List.filter_cons_of_neg (by simp [hav])]
        exact ih hndt hrt
      · rw [List.filter_cons_of_pos (by simp [hav, har]), List.filter_cons_of_pos (by simpa using hav)]
        simp only [List.length_cons]
        exact Nat.succ_lt_succ (ih hndt hrt)

theorem unvisited_cons_lt (g : Graph) (r : Nat) (visited : List Nat)
    (hnd : g.rooms.Nodup) (hr : r ∈ g.rooms) (hv : r ∉ visited) :
    unvisited g (r :: visited) < unvisited g visited :=
  filter_notmem_cons_lt g.rooms r visited hnd hr hv

theorem dfs_complete (g : Graph) (limit : Nat) (hw : wfGraph g) : ∀ fuel,
    (∀ r visited path res q, r ∈ g.rooms → r ∉ visited →
      reachesFrom g visited r q → unvisited g visited < fuel →
      min limit (res.length + 1) ≤ (dfsAux g limit fuel r visited path res).length) ∧
    (∀ nbs visited path res nb q, nb ∈ nbs →
      reachesFrom g visited nb q → unvisited g visited < fuel →
      min limit (res.length + 1) ≤ (dfsNbrs g limit fuel nbs visited path res).length) := by
  intro fuel
  induction fuel with
  | zero =>
    constructor
    · intro r v p res q _ _ _ hfu; omega
    · intro nbs v p res nb q _ _ hfu; omega
  | succ fuel ihf =>
    have haux : ∀ r visited path res q, r ∈ g.rooms → r ∉ visited →
        reachesFrom g visited r q → unvisited g visited < fuel + 1 →
        min limit (res.length + 1) ≤ (dfsAux g limit (fuel + 1) r visited path res).length := by
      intro r v p res q hrm hrv hreach hfu
      rw [dfsAux]
      by_cases hcap : limit ≤ res.length
      · rw [if_pos hcap]; omega
      · rw [if_neg hcap]
        by_cases hfin : r = g.finish
        · rw [if_pos hfin, List.length_append, List.length_singleton]; omega
        · rw [if_neg hfin]
          obtain ⟨hh, hl, hnd, hch, hav, hrm'⟩ := hreach
          cases q with
          | nil => simp at hh
          | cons a q2 =>
            simp only [List.head?_cons, Option.some.injEq] at hh
            subst hh
            cases q2 with
            | nil =>
              simp only [List.getLast?_singleton, Option.some.injEq] at hl
              exact absurd hl hfin
            | cons b q3 =>
              have hreach' : reachesFrom g (a :: v) b (b :: q3) := by
                refine ⟨rfl, ?_, hnd.of_cons, (List.chain'_cons.1 hch).2, ?_, ?_⟩
                · rwa [List.getLast?_cons_cons] at hl
                · intro x hx
                  rw [List.mem_cons]
                  rw [List.nodup_cons] at hnd
                  rintro (rfl | hxv)
                  · exact hnd.1 hx
                  · exact hav x (List.mem_cons_of_mem a hx) hxv
                · intro x hx
                  exact hrm' x (List.mem_cons_of_mem a hx)
              have hblink : b ∈ g.links a := (List.chain'_cons.1 hch).1
              have hfu' : unvisited g (a :: v) < fuel := by
                have := unvisited_cons_lt g a v hw.1 hrm hrv
                omega
              exact ihf.2 (g.links a) (a :: v) (p ++ [a]) res b (b :: q3) hblink hreach' hfu'
    refine ⟨fun r v p res q => haux r v p res q, ?_⟩
    intro nbs
    induction nbs with
    | nil => intro v p res nb q hnb _ _; exact absurd hnb (List.not_mem_nil nb)
    | cons nb0 rest ih =>
      intro v p res nb q hnb hreach hfu
      rw [dfsNbrs]
      rcases List.mem_cons.1 hnb with rfl | hrest
      · have hnbv : nb ∉ v := by
          have hmem : nb ∈ q := by
            obtain ⟨hh, _, _, _, _, _⟩ := hreach
            cases q with
            | nil => simp at hh
            | cons a t =>
              simp only [List.head?_cons, Option.some.injEq] at hh
              exact hh ▸ List.mem_cons_self a t
          exact hreach.2.2.2.2.1 nb hmem
        rw [if_neg hnbv]
        have hnbm : nb ∈ g.rooms := by
          have hmem : nb ∈ q := by
            obtain ⟨hh, _, _, _, _, _⟩ := hreach
            cases q with
            | nil => simp at hh
            | cons a t =>
              simp only [List.head?_cons, Option.some.injEq] at hh
              exact hh ▸ List.mem_cons_self a t
          exact hreach.2.2.2.2.2 nb hmem
        have h1 := haux nb v p res q hnbm hnbv hreach hfu
        obtain ⟨t, ht⟩ := (dfs_mono g limit (fuel + 1)).2 rest v p
          (dfsAux g limit (fuel + 1) nb v p res)
        rw [ht, List.length_append]
        omega
      · have hgrow : res.length ≤
            (if nb0 ∈ v then res else dfsAux g limit (fuel + 1) nb0 v p res).length := by
          split
          · exact le_refl _
          · obtain ⟨t, ht⟩ := (dfs_mono g limit (fuel + 1)).1 nb0 v p res
            rw [ht, List.length_append]
            omega
        have h2 := ih v p (if nb0 ∈ v then res else dfsAux g limit (fuel + 1) nb0 v p res)
          nb q hrest hreach hfu
        omega

theorem routeOK_mem_rooms_aux (g : Graph) (hw : wfGraph g) :
    ∀ (q : List Nat) (a : Nat), a ∈ g.rooms → linked g (a :: q) →
      ∀ x ∈ a :: q, x ∈ g.rooms := by
  intro q
  induction q with
  | nil =>
    intro a ha _ x hx
    rw [List.mem_singleton] at hx
    exact hx ▸ ha
  | cons b q' ih =>
    intro a ha hch x hx
    have hab := (List.chain'_cons.1 hch).1
    have hb : b ∈ g.rooms := hw.2.2.1 a ha b hab
    rcases List.mem_cons.1 hx with rfl | hx'
    · exact ha
    · exact ih b hb (List.chain'_cons.1 hch).2 x hx'

theorem routeOK_mem_rooms (g : Graph) (hw : wfGraph g) (q : List Nat)
    (h : routeOK g q) : ∀ x ∈ q, x ∈ g.rooms := by
  obtain ⟨hh, _, _, hch⟩ := h
  cases q with
  | nil => intro x hx; exact absurd hx (List.not_mem_nil x)
  | cons a t =>
    simp only [List.head?_cons, Option.some.injEq] at hh
    exact hh ▸ routeOK_mem_rooms_aux g hw t a (hh ▸ hw.2.1) (hh ▸ hch)

theorem allPaths_ne_nil (g : Graph) (limit : Nat) (hw : wfGraph g)
    (hlim : 1 ≤ limit) (q : List Nat) (hq : routeOK g q) :
    allPaths g limit ≠ [] := by
  have hmem := routeOK_mem_rooms g hw q hq
  have hreach : reachesFrom g [] g.start q :=
    ⟨hq.1, hq.2.1, hq.2.2.1, hq.2.2.2, fun x _ => List.not_mem_nil x, hmem⟩
  have hfu : unvisited g [] < g.rooms.length + 1 := by
    have : unvisited g [] ≤ g.rooms.length := by
      rw [unvisited]
      have := List.length_filter_le (fun x => decide (x ∉ ([] : List Nat))) g.rooms
      omega
    omega
  have h := (dfs_complete g limit hw (g.rooms.length + 1)).1 g.start [] [] [] q
    hw.2.1 (List.not_mem_nil g.start) hreach hfu
  intro he
  rw [allPaths] at he
  rw [he] at h
  simp at h
  omega

theorem allPaths_two_le (g : Graph) (limit : Nat) (h : g.start ≠ g.finish) :
    ∀ p ∈ allPaths g limit, 2 ≤ p.length := by
  intro p hp
  obtain ⟨hh, hl, _, _⟩ := allPaths_routeOK g limit p hp
  cases p with
  | nil => simp at hh
  | cons a t =>
    cases t with
    | nil =>
      simp only [List.head?_cons, Option.some.injEq] at hh
      simp only [List.getLast?_singleton, Option.some.injEq] at hl
      exact absurd (hh ▸ hl) h
    | cons b t' => simp [List.length_cons]

theorem getLast_not_mem_dropLast (p : List Nat) (hnd : p.Nodup) (x : Nat)
    (hl : p.getLast? = some x) : x ∉ p.dropLast := by
  cases p with
  | nil => simp at hl
  | cons a t =>
    have hne : (a :: t) ≠ [] := List.cons_ne_nil a t
    have hsp := List.dropLast_append_getLast hne
    rw [List.getLast?_eq_getLast (a :: t) hne, Option.some.injEq] at hl
    rw [← hsp, List.nodup_append] at hnd
    intro hmem
    exact hnd.2.2 hmem (hl ▸ List.mem_singleton_self _)

/-- C5: the route enumerator contract.  For every graph and cap:
the result holds at most `limit` routes; every returned route is a
simple (no repeated room) linked path whose first room is Start and last
room is End; raising the cap only extends the enumeration (the capped
result is the prefix of the less-capped one, i.e. enumeration follows
the depth-first discovery order and stops as soon as `limit` routes are
found); and when no start-to-finish route exists at all the result is
empty, a valid no-solution signal rather than an error. -/
theorem claim_C5_allPaths_contract (g : Graph) (limit : Nat) :
    (allPaths g limit).length ≤ limit ∧
    (∀ p ∈ allPaths g limit, p.head? = some g.start ∧ p.getLast? = some g.finish ∧
      p.Nodup ∧ linked g p) ∧
    (∀ limit', limit ≤ limit' → allPaths g limit = (allPaths g limit').take limit) ∧
    ((∀ q, ¬ routeOK g q) → allPaths g limit = []) := by
  refine ⟨?_, ?_, ?_, ?_⟩
  · exact (dfs_length_le g limit (g.rooms.length + 1)).1 g.start [] [] [] (by simp)
  · intro p hp; exact allPaths_routeOK g limit p hp
  · intro limit' h; exact allPaths_take g limit limit' h
  · intro hno
    cases hall : allPaths g limit with
    | nil => rfl
    | cons p t =>
      have hOK := allPaths_routeOK g limit p (by rw [hall]; exact List.mem_cons_self p t)
      exact absurd hOK (hno p)

theorem claim_C5_allPaths_contract_witness :
    allPaths gEx 1 = (allPaths gEx 2).take 1 ∧ (allPaths gEx 50).length ≤ 50 :=
  ⟨(claim_C5_allPaths_contract gEx 1).2.2.1 2 (by omega),
   (claim_C5_allPaths_contract gEx 50).1⟩

/-- C10 (implicit safety claim): when Start and End differ, every route
returned by `allPaths` has at least two rooms, End sits only at its last
position, and therefore the interior slice `p[1:len(p)-1]` taken by
`bestDisjointPaths` is in bounds for every candidate, so the
out-of-range panic branch (`Fail.panic`) is unreachable under that
precondition. -/
theorem claim_C10_interior_slice_safe (g : Graph) (limit : Nat) (h : g.start ≠ g.finish) :
    (∀ p ∈ allPaths g limit, 2 ≤ p.length ∧ p.getLast? = some g.finish ∧
      g.finish ∉ p.dropLast) ∧
    FindPaths g ≠ Except.error Fail.panic := by
  constructor
  · intro p hp
    obtain ⟨hh, hl, hnd, _⟩ := allPaths_routeOK g limit p hp
    exact ⟨allPaths_two_le g limit h p hp, hl, getLast_not_mem_dropLast p hnd g.finish hl⟩
  · have hall2 : ∀ p ∈ sortRoutes (allPaths g MaxPaths), 2 ≤ p.length := by
      intro p hp
      have hmem : p ∈ allPaths g MaxPaths :=
        (sortRoutes_perm (allPaths g MaxPaths)).subset hp
      exact allPaths_two_le g MaxPaths h p hmem
    rw [FindPaths, bestDisjointPaths]
    intro hcontra
    cases hE : recE g.ants (sortRoutes (allPaths g MaxPaths)) 0 [] [] [] initSt with
    | ok st =>
      rw [hE] at hcontra
      exact absurd hcontra (by simp [Except.map])
    | error e =>
      rw [hE] at hcontra
      have he : e = Fail.panic := by
        simpa [Except.map] using hcontra
      subst he
      exact recE_no_panic g.ants (sortRoutes (allPaths g MaxPaths)) 0 [] [] []
        initSt hall2 hE

theorem claim_C10_interior_slice_safe_witness :
    FindPaths gEx ≠ Except.error Fail.panic :=
  (claim_C10_interior_slice_safe gEx 50 (by decide)).2

theorem specIdxLt_irrefl : ∀ x, specIdxLt x x = false := by
  intro x
  induction x with
  | nil => rfl
  | cons a as ih => simp [specIdxLt, ih]

theorem specIdxLt_trans : ∀ a b c, specIdxLt a b = true → specIdxLt b c = true →
    specIdxLt a c = true := by
  intro a
  induction a with
  | nil =>
    intro b c _ h2
    cases c with
    | nil =>
      cases b with
      | nil => simp [specIdxLt] at h2
      | cons x xs => simp [specIdxLt] at h2
    | cons x xs => rfl
  | cons a as ih =>
    intro b c h1 h2
    cases b with
    | nil => simp [specIdxLt] at h1
    | cons b bs =>
      cases c with
      | nil => simp [specIdxLt] at h2
      | cons c cs =>
        simp only [specIdxLt] at h1 h2 ⊢
        by_cases hab : a < b
        · by_cases hbc : b < c
          · simp [show a < c by omega]
          · by_cases hbc' : b = c
            · simp [show a < c by omega]
            · simp [hbc, hbc'] at h2
        · by_cases hab' : a = b
          · subst hab'
            by_cases hbc : a < c
            · simp [hbc]
            · by_cases hbc' : a = c
              · subst hbc'
                simp only [hbc, if_neg, lt_irrefl, if_false, if_pos rfl] at h1 h2 ⊢
                simp at h1 h2
                exact ih _ _ h1 h2
              · simp [hbc, hbc'] at h2
          · simp [hab, hab'] at h1

theorem betterIdx_nil_right : ∀ x, betterIdx x [] = false := by
  intro x
  cases x with
  | nil => rfl
  | cons a as => rfl

theorem betterIdx_of_specIdxLt : ∀ y x, specIdxLt y x = true → betterIdx y x = true := by
  intro y
  induction y with
  | nil =>
    intro x h
    cases x with
    | nil => simp [specIdxLt] at h
    | cons b bs => simp [betterIdx]
  | cons a as ih =>
    intro x h
    cases x with
    | nil => simp [specIdxLt] at h
    | cons b bs =>
      simp only [specIdxLt] at h
      simp only [betterIdx]
      by_cases hab : a < b
      · simp [hab]
      · by_cases hab' : a = b
        · subst hab'
          simp only [lt_irrefl, if_false, if_neg hab] at h ⊢
          simp at h
          simp [ih bs h]
        · simp [hab, hab'] at h

theorem betterIdx_of_strict_pref : ∀ x t, t ≠ [] → betterIdx (x ++ t) x = false := by
  intro x
  induction x with
  | nil =>
    intro t ht
    cases t with
    | nil => exact absurd rfl ht
    | cons c cs => rfl
  | cons b bs ih =>
    intro t ht
    simp only [List.cons_append, betterIdx, lt_irrefl, if_false, if_neg]
    exact ih t ht

theorem specIdxLt_strict_pref_right : ∀ x t, t ≠ [] → specIdxLt (x ++ t) x = false := by
  intro x
  induction x with
  | nil =>
    intro t ht
    cases t with
    | nil => exact absurd rfl ht
    | cons c cs => rfl
  | cons b bs ih =>
    intro t ht
    simp only [List.cons_append, specIdxLt, lt_irrefl, if_false, if_pos rfl, if_neg]
    exact ih t ht

theorem specIdxLt_strict_pref_left : ∀ x t, t ≠ [] → specIdxLt x (x ++ t) = true := by
  intro x
  induction x with
  | nil =>
    intro t ht
    cases t with
    | nil => exact absurd rfl ht
    | cons c cs => rfl
  | cons b bs ih =>
    intro t ht
    simp only [List.cons_append, specIdxLt, lt_irrefl, if_false, if_pos rfl, if_neg]
    exact ih t ht

theorem specIdxLt_common_pref : ∀ (u : List Nat) (a b : Nat) (s t : List Nat), a < b →
    specIdxLt (u ++ a :: s) (u ++ b :: t) = true := by
  intro u
  induction u with
  | nil => intro a b s t h; simp [specIdxLt, h]
  | cons c u' ih =>
    intro a b s t h
    simp only [List.cons_append, specIdxLt, lt_irrefl, if_false, if_pos rfl, if_neg]
    exact ih a b s t h

theorem recP_eq_foldl (ants : Int) : ∀ (suffix : List (List Nat)) (i : Nat)
    (cur : List (List Nat)) (idxs used : List Nat) (st : BestSt),
    recP ants suffix i cur idxs used st =
      (combosE suffix i cur idxs used).foldl (fun s ci => offer ants s ci.1 ci.2) st := by
  intro suffix
  induction suffix with
  | nil => intro i cur idxs used st; rfl
  | cons p rest ih =>
    intro i cur idxs used st
    simp only [recP, combosE]
    by_cases hd : disjFrom p used
    · rw [if_pos hd, if_pos hd, List.foldl_append, ← ih, ← ih]
    · rw [if_neg hd, if_neg hd, List.foldl_append, ← ih]
      rfl

theorem combosE_shape : ∀ (suffix : List (List Nat)) (i : Nat) (cur : List (List Nat))
    (idxs used : List Nat) (ci : List (List Nat) × List Nat),
    ci ∈ combosE suffix i cur idxs used →
    ∃ ext, ci.2 = idxs ++ ext ∧ ∀ j ∈ ext, i ≤ j := by
  intro suffix
  induction suffix with
  | nil =>
    intro i cur idxs used ci h
    simp only [combosE, List.mem_singleton] at h
    subst h
    exact ⟨[], by simp, by simp⟩
  | cons p rest ih =>
    intro i cur idxs used ci h
    rw [combosE] at h
    rcases List.mem_append.1 h with h1 | h2
    · obtain ⟨ext, hix, hge⟩ := ih (i + 1) cur idxs used ci h1
      exact ⟨ext, hix, fun j hj => le_trans (by omega) (hge j hj)⟩
    · by_cases hd : disjFrom p used
      · rw [if_pos hd] at h2
        obtain ⟨ext, hix, hge⟩ := ih (i + 1) (cur ++ [p]) (idxs ++ [i])
          (used ++ interiorRooms p) ci h2
        refine ⟨i :: ext, ?_, ?_⟩
        · rw [hix, List.append_assoc, List.singleton_append]
        · intro j hj
          rcases List.mem_cons.1 hj with rfl | hj'
          · exact le_refl j
          · exact le_trans (by omega) (hge j hj')
      · rw [if_neg hd] at h2
        exact absurd h2 (List.not_mem_nil ci)

theorem combosE_pairwise : ∀ (suffix : List (List Nat)) (i : Nat) (cur : List (List Nat))
    (idxs used : List Nat),
    List.Pairwise (fun a b : List (List Nat) × List Nat =>
        specIdxLt b.2 a.2 = true ∨ ∃ t, t ≠ [] ∧ b.2 = a.2 ++ t)
      (combosE suffix i cur idxs used) := by
  intro suffix
  induction suffix with
  | nil => intro i cur idxs used; simp [combosE]
  | cons p rest ih =>
    intro i cur idxs used
    rw [combosE, List.pairwise_append]
    refine ⟨ih (i + 1) cur idxs used, ?_, ?_⟩
    · by_cases hd : disjFrom p used
      · rw [if_pos hd]; exact ih (i + 1) (cur ++ [p]) (idxs ++ [i]) (used ++ interiorRooms p)
      · rw [if_neg hd]; exact List.Pairwise.nil
    · intro a ha b hb
      by_cases hd : disjFrom p used
      · rw [if_pos hd] at hb
        obtain ⟨extA, hA, hgeA⟩ := combosE_shape rest (i + 1) cur idxs used a ha
        obtain ⟨extB, hB, _⟩ := combosE_shape rest (i + 1) (cur ++ [p]) (idxs ++ [i])
          (used ++ interiorRooms p) b hb
        cases extA with
        | nil =>
          right
          refine ⟨i :: extB, List.cons_ne_nil i extB, ?_⟩
          rw [hB, hA, List.append_nil, List.append_assoc, List.singleton_append]
        | cons x xs =>
          left
          have hix : i < x := by
            have := hgeA x (List.mem_cons_self x xs)
            omega
          rw [hA, hB, List.append_assoc, List.singleton_append]
          exact specIdxLt_common_pref idxs i x extB xs hix
      · rw [if_neg hd] at hb
        exact absurd hb (List.not_mem_nil b)

theorem interiorDisjoint_symm (p q : List Nat) (h : interiorDisjoint p q) :
    interiorDisjoint q p :=
  fun r hrq hrp => h r hrp hrq

theorem disjFrom_iff (p used : List Nat) :
    disjFrom p used = true ↔ ∀ r ∈ interiorRooms p, r ∉ used := by
  simp [disjFrom, List.all_eq_true]

theorem comboOK_nil (all : List (List Nat)) : ComboOK all [] :=
  ⟨List.chain'_nil, by simp, List.Pairwise.nil⟩

theorem comboOK_append_left (all : List (List Nat)) (u v : List Nat)
    (h : ComboOK all (u ++ v)) : ComboOK all u := by
  obtain ⟨h1, h2, h3⟩ := h
  exact ⟨(List.chain'_append.1 h1).1, fun j hj => h2 j (List.mem_append_left v hj),
    h3.sublist (List.sublist_append_left u v)⟩

theorem comboOK_middle_gt (all : List (List Nat)) (u : List Nat) (i : Nat) (v : List Nat)
    (h : ComboOK all (u ++ i :: v)) : ∀ x ∈ v, i < x := by
  have hch : List.Chain' (fun a b => a < b) (i :: v) := (List.chain'_append.1 h.1).2.1
  have hpw := List.chain'_iff_pairwise.1 hch
  exact fun x hx => (List.pairwise_cons.1 hpw).1 x hx

theorem comboOK_cross (all : List (List Nat)) (u : List Nat) (i : Nat) (v : List Nat)
    (h : ComboOK all (u ++ i :: v)) :
    ∀ a ∈ u, interiorDisjoint (all.getD a []) (all.getD i []) := by
  have hc := (List.pairwise_append.1 h.2.2).2.2
  exact fun a ha => hc a ha i (List.mem_cons_self i v)

theorem comboOK_snoc (all : List (List Nat)) (idxs : List Nat) (i : Nat)
    (hOK : ComboOK all idxs) (hb : ∀ j ∈ idxs, j < i) (hi : i < all.length)
    (hdisj : ∀ j ∈ idxs, interiorDisjoint (all.getD j []) (all.getD i [])) :
    ComboOK all (idxs ++ [i]) := by
  refine ⟨?_, ?_, ?_⟩
  · rw [List.chain'_append]
    refine ⟨hOK.1, List.chain'_singleton i, fun x hx y hy => ?_⟩
    simp only [List.head?_cons, Option.mem_def, Option.some.injEq] at hy
    subst hy
    exact hb x (List.mem_of_mem_getLast? hx)
  · intro j hj
    rcases List.mem_append.1 hj with hj' | hj'
    · exact hOK.2.1 j hj'
    · exact (List.mem_singleton.1 hj') ▸ hi
  · rw [List.pairwise_append]
    refine ⟨hOK.2.2, List.pairwise_singleton _ i, fun a ha b hb' => ?_⟩
    rw [List.mem_singleton] at hb'
    exact hb' ▸ hdisj a ha

theorem pathsOf_append (all : List (List Nat)) (u v : List Nat) :
    pathsOf all (u ++ v) = pathsOf all u ++ pathsOf all v :=
  List.map_append _ u v

theorem combosE_mem (all : List (List Nat)) : ∀ (suffix : List (List Nat)) (i : Nat)
    (cur : List (List Nat)) (idxs used : List Nat),
    suffix = all.drop i →
    (∀ j ∈ idxs, j < i) →
    cur = pathsOf all idxs →
    ComboOK all idxs →
    (∀ x, x ∈ used ↔ ∃ j ∈ idxs, x ∈ interiorRooms (all.getD j [])) →
    ∀ ci : List (List Nat) × List Nat,
      (ci ∈ combosE suffix i cur idxs used ↔
        (∃ ext, ci.2 = idxs ++ ext ∧ (∀ j ∈ ext, i ≤ j) ∧ ComboOK all ci.2 ∧
          ci.1 = pathsOf all ci.2)) := by
  intro suffix
  induction suffix with
  | nil =>
    intro i cur idxs used hsuf hbound hcur hOK hused ci
    have hlen : all.length ≤ i := by
      by_contra hc
      push_neg at hc
      have : all.drop i ≠ [] := by
        intro he
        have := List.length_drop i all
        rw [he] at this
        simp at this
        omega
      exact this hsuf.symm
    constructor
    · intro h
      simp only [combosE, List.mem_singleton] at h
      subst h
      exact ⟨[], by simp, by simp, by simpa using hOK, by simpa using hcur⟩
    · rintro ⟨ext, hix, hge, hOK', hc⟩
      cases ext with
      | cons j t =>
        have hj1 : j < all.length := hOK'.2.1 j (by rw [hix]; simp)
        have hj2 : i ≤ j := hge j (List.mem_cons_self j t)
        omega
      | nil =>
        rw [List.append_nil] at hix
        simp only [combosE, List.mem_singleton]
        have : ci = (ci.1, ci.2) := rfl
        rw [this, hix, hc, hix, ← hcur]
  | cons p rest ih =>
    intro i cur idxs used hsuf hbound hcur hOK hused ci
    have hlen : i < all.length := by
      by_contra hc
      push_neg at hc
      rw [List.drop_eq_nil_of_le hc] at hsuf
      exact (List.cons_ne_nil p rest) hsuf
    have hget : all.getD i [] = p := by
      have h1 : (all.drop i).head? = some p := by rw [← hsuf]; rfl
      rw [List.head?_drop] at h1
      rw [List.getD_eq_getElem?_getD, h1]
      rfl
    have hrest : rest = all.drop (i + 1) := by
      have h1 : (all.drop i).drop 1 = rest := by rw [← hsuf]; rfl
      rw [List.drop_drop] at h1
      exact h1.symm
    have hbound1 : ∀ j ∈ idxs, j < i + 1 := fun j hj => by
      have := hbound j hj
      omega
    have hboundS : ∀ j ∈ idxs ++ [i], j < i + 1 := by
      intro j hj
      rcases List.mem_append.1 hj with hj' | hj'
      · have := hbound j hj'
        omega
      · rw [List.mem_singleton] at hj'
        omega
    have hcurS : cur ++ [p] = pathsOf all (idxs ++ [i]) := by
      rw [pathsOf_append, ← hcur]
      show cur ++ [p] = cur ++ [all.getD i []]
      rw [hget]
    have husedS : ∀ x, x ∈ used ++ interiorRooms p ↔
        ∃ j ∈ idxs ++ [i], x ∈ interiorRooms (all.getD j []) := by
      intro x
      rw [List.mem_append, hused x]
      constructor
      · rintro (⟨j, hj, hx⟩ | hx)
        · exact ⟨j, List.mem_append_left [i] hj, hx⟩
        · exact ⟨i, List.mem_append_right idxs (List.mem_singleton_self i),
            by rwa [hget]⟩
      · rintro ⟨j, hj, hx⟩
        rcases List.mem_append.1 hj with hj' | hj'
        · exact Or.inl ⟨j, hj', hx⟩
        · rw [List.mem_singleton] at hj'
          subst hj'
          rw [hget] at hx
          exact Or.inr hx
    rw [combosE, List.mem_append]
    constructor
    · rintro (h1 | h2)
      · obtain ⟨ext, hix, hge, hOK', hc⟩ :=
          (ih (i + 1) cur idxs used hrest hbound1 hcur hOK hused ci).1 h1
        exact ⟨ext, hix, fun j hj => le_trans (by omega) (hge j hj), hOK', hc⟩
      · by_cases hd : disjFrom p used
        · rw [if_pos hd] at h2
          have hdisjS : ∀ j ∈ idxs, interiorDisjoint (all.getD j []) (all.getD i []) := by
            intro j hj r hrj hri
            have hri' : r ∈ interiorRooms p := by rw [← hget]; exact hri
            have hru : r ∉ used := (disjFrom_iff p used).1 hd r hri'
            exact hru ((hused r).2 ⟨j, hj, hrj⟩)
          have hOKS : ComboOK all (idxs ++ [i]) :=
            comboOK_snoc all idxs i hOK hbound hlen hdisjS
          obtain ⟨ext, hix, hge, hOK', hc⟩ :=
            (ih (i + 1) (cur ++ [p]) (idxs ++ [i]) (used ++ interiorRooms p)
              hrest hboundS hcurS hOKS husedS ci).1 h2
          refine ⟨i :: ext, ?_, ?_, hOK', hc⟩
          · rw [hix, List.append_assoc, List.singleton_append]
          · intro j hj
            rcases List.mem_cons.1 hj with rfl | hj'
            · exact le_refl j
            · exact le_trans (by omega) (hge j hj')
        · rw [if_neg hd] at h2
          exact absurd h2 (List.not_mem_nil ci)
    · rintro ⟨ext, hix, hge, hOK', hc⟩
      cases ext with
      | nil =>
        left
        exact (ih (i + 1) cur idxs used hrest hbound1 hcur hOK hused ci).2
          ⟨[], hix, by simp, hOK', hc⟩
      | cons j ext' =>
        have hji : i ≤ j := hge j (List.mem_cons_self j ext')
        rcases eq_or_lt_of_le hji with rfl | hlt
        · right
          have hOKfull : ComboOK all (idxs ++ i :: ext') := by rw [← hix]; exact hOK'
          have hOKS : ComboOK all (idxs ++ [i]) := by
            apply comboOK_append_left all (idxs ++ [i]) ext'
            rwa [List.append_assoc, List.singleton_append]
          have hd : disjFrom p used = true := by
            rw [disjFrom_iff]
            intro r hr hru
            obtain ⟨a, ha, hra⟩ := (hused r).1 hru
            have hcross := comboOK_cross all idxs i ext' hOKfull a ha
            rw [hget] at hcross
            exact hcross r hra hr
          rw [if_pos hd]
          refine (ih (i + 1) (cur ++ [p]) (idxs ++ [i]) (used ++ interiorRooms p)
            hrest hboundS hcurS hOKS husedS ci).2 ⟨ext', ?_, ?_, hOK', hc⟩
          · rw [hix, List.append_assoc, List.singleton_append]
          · intro x hx
            have := comboOK_middle_gt all idxs i ext' hOKfull x hx
            omega
        · left
          refine (ih (i + 1) cur idxs used hrest hbound1 hcur hOK hused ci).2
            ⟨j :: ext', hix, ?_, hOK', hc⟩
          intro x hx
          rcases List.mem_cons.1 hx with rfl | hx'
          · omega
          · have hOK'' : ComboOK all (idxs ++ j :: ext') := hix ▸ hOK'
            have := comboOK_middle_gt all idxs j ext' hOK'' x hx'
            omega

theorem offer_eq (ants : Int) (st : BestSt) (cur : List (List Nat)) (idxs : List Nat) :
    offer ants st cur idxs =
      if cur = [] then st
      else if tOf ants cur < st.bestTurns ∨
          (tOf ants cur = st.bestTurns ∧ betterIdx idxs st.bestIdx = true) then
        ⟨tOf ants cur, cur, idxs⟩
      else st := rfl

theorem foldl_offer_inv (ants : Int) (L : List (List (List Nat) × List Nat))
    (hpw : List.Pairwise candR L) :
    InvSt ants L (L.foldl (fun s ci => offer ants s ci.1 ci.2) initSt) := by
  induction L using List.reverseRecOn with
  | nil => exact Or.inl ⟨rfl, by simp⟩
  | append_singleton L c ih =>
    rw [List.pairwise_append] at hpw
    obtain ⟨hL, _, hcross⟩ := hpw
    have hcr : ∀ a ∈ L, candR a c := fun a ha => hcross a ha c (List.mem_singleton_self c)
    have hinv := ih hL
    rw [List.foldl_append, List.foldl_cons, List.foldl_nil]
    set st := L.foldl (fun s ci => offer ants s ci.1 ci.2) initSt with hst
    rw [offer_eq]
    by_cases hc1 : c.1 = []
    · rw [if_pos hc1]
      rcases hinv with ⟨h1, h2⟩ | ⟨hmem, hne, hteq, hlt, hmin⟩
      · refine Or.inl ⟨h1, fun ci hci hne => ?_⟩
        rcases List.mem_append.1 hci with hciL | hcic
        · exact h2 ci hciL hne
        · rw [List.mem_singleton] at hcic
          exact absurd (hcic ▸ hc1) hne
      · refine Or.inr ⟨List.mem_append_left [c] hmem, hne, hteq, hlt, fun ci hci hcine => ?_⟩
        rcases List.mem_append.1 hci with hciL | hcic
        · exact hmin ci hciL hcine
        · rw [List.mem_singleton] at hcic
          exact absurd (hcic ▸ hc1) hcine
    · rw [if_neg hc1]
      rcases hinv with ⟨h1, h2⟩ | ⟨hmem, hne, hteq, hlt, hmin⟩
      · have hbT : st.bestTurns = maxIntGo := by rw [h1]; rfl
        have hbI : st.bestIdx = [] := by rw [h1]; rfl
        by_cases ht : tOf ants c.1 < maxIntGo
        · rw [if_pos (by rw [hbT]; exact Or.inl ht)]
          refine Or.inr ⟨?_, hc1, rfl, ht, fun ci hci hcine => ?_⟩
          · simp only []
            rw [Prod.mk.eta]
            exact List.mem_append_right L (List.mem_singleton_self c)
          · rcases List.mem_append.1 hci with hciL | hcic
            · have := h2 ci hciL hcine
              exact Or.inr (Or.inl (by simp only []; omega))
            · rw [List.mem_singleton] at hcic
              subst hcic
              exact Or.inl (Prod.mk.eta).symm
        · rw [if_neg (by
            rw [hbT, hbI, betterIdx_nil_right]
            push_neg
            exact ⟨by omega, fun _ => by simp⟩)]
          refine Or.inl ⟨h1, fun ci hci hcine => ?_⟩
          rcases List.mem_append.1 hci with hciL | hcic
          · exact h2 ci hciL hcine
          · rw [List.mem_singleton] at hcic
            subst hcic
            omega
      · have hcrc : candR (st.best, st.bestIdx) c := hcr _ hmem
        have hbiff : betterIdx c.2 st.bestIdx = specIdxLt c.2 st.bestIdx := by
          rcases hcrc with hsp | ⟨tl, htl, hb2⟩
          · rw [betterIdx_of_specIdxLt c.2 st.bestIdx hsp, hsp]
          · simp only [] at hb2
            rw [hb2, betterIdx_of_strict_pref st.bestIdx tl htl,
              specIdxLt_strict_pref_right st.bestIdx tl htl]
        by_cases hcond : tOf ants c.1 < st.bestTurns ∨
            (tOf ants c.1 = st.bestTurns ∧ betterIdx c.2 st.bestIdx = true)
        · rw [if_pos hcond]
          have hcond' : tOf ants c.1 < st.bestTurns ∨
              (tOf ants c.1 = st.bestTurns ∧ specIdxLt c.2 st.bestIdx = true) := by
            rwa [hbiff] at hcond
          refine Or.inr ⟨?_, hc1, rfl, by rcases hcond' with h | ⟨h, _⟩ <;> simp only [] <;> omega,
            fun ci hci hcine => ?_⟩
          · simp only []
            rw [Prod.mk.eta]
            exact List.mem_append_right L (List.mem_singleton_self c)
          · rcases List.mem_append.1 hci with hciL | hcic
            · rcases hmin ci hciL hcine with hcia | hciT | ⟨hciT, hciS⟩
              · rcases hcond' with h | ⟨h, hs⟩
                · refine Or.inr (Or.inl ?_)
                  simp only []
                  rw [hcia]
                  simp only []
                  omega
                · refine Or.inr (Or.inr ⟨?_, ?_⟩)
                  · simp only []
                    rw [hcia]
                    simp only []
                    omega
                  · simp only []
                    rw [hcia]
                    simp only []
                    exact hs
              · refine Or.inr (Or.inl ?_)
                simp only []
                rcases hcond' with h | ⟨h, _⟩ <;> omega
              · rcases hcond' with h | ⟨h, hs⟩
                · exact Or.inr (Or.inl (by simp only []; omega))
                · refine Or.inr (Or.inr ⟨by simp only []; omega,
                    specIdxLt_trans c.2 st.bestIdx ci.2 hs hciS⟩)
            · rw [List.mem_singleton] at hcic
              subst hcic
              exact Or.inl (Prod.mk.eta).symm
        · rw [if_neg hcond]
          push_neg at hcond
          obtain ⟨hnotlt, hnoteq⟩ := hcond
          refine Or.inr ⟨List.mem_append_left [c] hmem, hne, hteq, hlt,
            fun ci hci hcine => ?_⟩
          rcases List.mem_append.1 hci with hciL | hcic
          · exact hmin ci hciL hcine
          · rw [List.mem_singleton] at hcic
            subst hcic
            by_cases hbt : st.bestTurns < tOf ants ci.1
            · exact Or.inr (Or.inl hbt)
            · have heq : tOf ants ci.1 = st.bestTurns := by omega
              refine Or.inr (Or.inr ⟨heq.symm, ?_⟩)
              rcases hcrc with hsp | ⟨tl, htl, hb2⟩
              · exact absurd (betterIdx_of_specIdxLt _ _ hsp) (by
                  have := hnoteq heq
                  simpa using this)
              · rw [hb2]
                exact specIdxLt_strict_pref_left st.bestIdx tl htl

theorem combosE_top_mem (all : List (List Nat)) (ci : List (List Nat) × List Nat) :
    ci ∈ combosE all 0 [] [] [] ↔ (ComboOK all ci.2 ∧ ci.1 = pathsOf all ci.2) := by
  rw [combosE_mem all all 0 [] [] [] (by rw [List.drop_zero]) (by simp) rfl
    (comboOK_nil all) (by simp) ci]
  constructor
  · rintro ⟨ext, _, _, h3, h4⟩
    exact ⟨h3, h4⟩
  · rintro ⟨h3, h4⟩
    exact ⟨ci.2, by simp, by simp, h3, h4⟩

theorem bestCombo_inv (all : List (List Nat)) (ants : Int) :
    InvSt ants (combosE all 0 [] [] []) (bestCombo all ants) := by
  rw [bestCombo, recP_eq_foldl]
  exact foldl_offer_inv ants _ (combosE_pairwise all 0 [] [] [])

theorem pathsOf_ne_nil (all : List (List Nat)) (ix : List Nat) (h : ix ≠ []) :
    pathsOf all ix ≠ [] := by
  cases ix with
  | nil => exact absurd rfl h
  | cons j t => exact List.cons_ne_nil _ _

theorem lensOf_ne_nil (cur : List (List Nat)) (h : cur ≠ []) : lensOf cur ≠ [] := by
  cases cur with
  | nil => exact absurd rfl h
  | cons p t => exact List.cons_ne_nil _ _

theorem comboOK_length_le (all : List (List Nat)) (ix : List Nat)
    (hOK : ComboOK all ix) : ix.length ≤ all.length := by
  have hnd : ix.Nodup :=
    List.Pairwise.imp (fun h => Nat.ne_of_lt h) (List.chain'_iff_pairwise.1 hOK.1)
  have hsub : ix ⊆ List.range all.length :=
    fun j hj => List.mem_range.2 (hOK.2.1 j hj)
  have := (List.Nodup.subperm hnd hsub).length_le
  simpa using this

/-- Every non-empty combination scored from a route list in the
wrap-free regime has a terminating scan with a value strictly below the
sentinel: its hop counts sit in `[1, B]`, it selects at most
`all.length` routes, and the size condition carries over. -/
theorem countTurns_combo_reg (all : List (List Nat)) (ants B : Int) (ix : List Nat)
    (hall : ∀ p ∈ all, 2 ≤ p.length ∧ (p.length : Int) ≤ B + 1)
    (hB : 1 ≤ B) (hBmax : B ≤ maxIntGo) (hkmax : (all.length : Int) ≤ maxIntGo)
    (hsz : 1 ≤ ants → ants + B + 2 * (all.length : Int) ≤ maxIntGo)
    (hOK : ComboOK all ix) (hne : ix ≠ []) :
    ∃ t, countTurns ants (lensOf (pathsOf all ix)) = some t ∧ 1 ≤ t ∧ t < maxIntGo := by
  have hlens : ∀ l ∈ lensOf (pathsOf all ix), 1 ≤ l ∧ l ≤ B := by
    intro l hl
    rw [lensOf, pathsOf, List.map_map] at hl
    obtain ⟨j, hj, rfl⟩ := List.mem_map.1 hl
    have hjlt : j < all.length := hOK.2.1 j hj
    have hmem : all.getD j [] ∈ all := by
      rw [List.getD_eq_getElem all [] hjlt]
      exact List.getElem_mem hjlt
    obtain ⟨h2, hle⟩ := hall _ hmem
    simp only [Function.comp_apply]
    constructor
    · have : (2 : Int) ≤ ((all.getD j []).length : Int) := by exact_mod_cast h2
      omega
    · omega
  have hklen : ((lensOf (pathsOf all ix)).length : Int) ≤ (all.length : Int) := by
    have : (lensOf (pathsOf all ix)).length = ix.length := by
      rw [lensOf, pathsOf, List.length_map, List.length_map]
    rw [this]
    exact_mod_cast comboOK_length_le all ix hOK
  have hlne : lensOf (pathsOf all ix) ≠ [] :=
    lensOf_ne_nil _ (pathsOf_ne_nil all ix hne)
  obtain ⟨T, hT, h1, hlt, _, _⟩ := countTurns_reg ants (lensOf (pathsOf all ix)) B
    hlne hlens hB hBmax (le_trans hklen hkmax)
    (fun ha => by have := hsz ha; omega)
  exact ⟨T, hT, h1, hlt⟩

/-- In the wrap-free regime every combination the search scores has a
defined (`some`) scan value: the hypothesis form consumed by
`recE_eq_ok`. -/
theorem hterm_of_reg (all : List (List Nat)) (ants B : Int)
    (hall : ∀ p ∈ all, 2 ≤ p.length ∧ (p.length : Int) ≤ B + 1)
    (hB : 1 ≤ B) (hBmax : B ≤ maxIntGo) (hkmax : (all.length : Int) ≤ maxIntGo)
    (hsz : 1 ≤ ants → ants + B + 2 * (all.length : Int) ≤ maxIntGo) :
    ∀ ci : List (List Nat) × List Nat, ci ∈ combosE all 0 [] [] [] → ci.1 ≠ [] →
      (countTurns ants (lensOf ci.1)).isSome = true := by
  intro ci hci hne
  obtain ⟨hOK, hpaths⟩ := (combosE_top_mem all ci).1 hci
  have hixne : ci.2 ≠ [] := by
    intro he
    apply hne
    rw [hpaths, he]
    rfl
  obtain ⟨t, ht, _, _⟩ :=
    countTurns_combo_reg all ants B ci.2 hall hB hBmax hkmax hsz hOK hixne
  rw [hpaths, ht]
  rfl

/-- Characterisation of the state returned by the subset search when at
least one non-empty valid combination scores strictly below the
`maxIntGo` sentinel (and every scored combination's scan terminates):
the search returns a valid non-empty combination that is minimal under
the spec order among the scored combinations. -/
theorem bestCombo_spec (all : List (List Nat)) (ants : Int) (ix : List Nat)
    (hterm : ∀ ci : List (List Nat) × List Nat, ci ∈ combosE all 0 [] [] [] →
      ci.1 ≠ [] → (countTurns ants (lensOf ci.1)).isSome = true)
    (hOK : ComboOK all ix) (hne : ix ≠ []) (t : Int)
    (ht : countTurns ants (lensOf (pathsOf all ix)) = some t) (hlt : t < maxIntGo) :
    ∃ bix, ComboOK all bix ∧ bix ≠ [] ∧
      (bestCombo all ants).best = pathsOf all bix ∧
      (bestCombo all ants).bestIdx = bix ∧
      (bestCombo all ants).bestTurns < maxIntGo ∧
      countTurns ants (lensOf (pathsOf all bix)) = some (bestCombo all ants).bestTurns ∧
      ((bestCombo all ants).bestTurns < t ∨
        ((bestCombo all ants).bestTurns = t ∧ (bix = ix ∨ specIdxLt bix ix = true))) := by
  have hmemL : (pathsOf all ix, ix) ∈ combosE all 0 [] [] [] :=
    (combosE_top_mem all (pathsOf all ix, ix)).2 ⟨hOK, rfl⟩
  have hne1 : pathsOf all ix ≠ [] := pathsOf_ne_nil all ix hne
  have htOf : tOf ants (pathsOf all ix) = t := by rw [tOf, ht]; rfl
  rcases bestCombo_inv all ants with ⟨_, h2⟩ | ⟨hmem, hneB, hteq, hltB, hmin⟩
  · have := h2 _ hmemL hne1
    simp only [] at this
    omega
  · obtain ⟨hOKb, hpb⟩ := (combosE_top_mem all _).1 hmem
    simp only [] at hOKb hpb
    have hbixne : (bestCombo all ants).bestIdx ≠ [] := by
      intro he
      apply hneB
      rw [hpb, he]
      rfl
    have hctb : countTurns ants (lensOf (pathsOf all (bestCombo all ants).bestIdx)) =
        some (bestCombo all ants).bestTurns := by
      have hsome := hterm ((bestCombo all ants).best, (bestCombo all ants).bestIdx)
        hmem hneB
      simp only [] at hsome
      rw [hpb] at hsome
      obtain ⟨T, hT⟩ := Option.isSome_iff_exists.1 hsome
      rw [hT, hteq, hpb, tOf, hT]
      rfl
    refine ⟨(bestCombo all ants).bestIdx, hOKb, hbixne, hpb, rfl, hltB, hctb, ?_⟩
    rcases hmin (pathsOf all ix, ix) hmemL hne1 with hcia | hciT | ⟨hciT, hciS⟩
    · have hix : ix = (bestCombo all ants).bestIdx := congrArg Prod.snd hcia
      have hcur : pathsOf all ix = (bestCombo all ants).best := congrArg Prod.fst hcia
      right
      constructor
      · rw [hteq, ← hcur, htOf]
      · exact Or.inl hix.symm
    · left
      rwa [htOf] at hciT
    · right
      rw [htOf] at hciT
      exact ⟨hciT, Or.inr hciS⟩

/-- C2: any two routes of the Route Set returned by `bestDisjointPaths`
(and hence by `FindPaths`, which delegates to it) have disjoint
interiors — the rooms excluding each route's first and last entry; the
endpoints themselves are not constrained and may be shared. -/
theorem claim_C2_interior_disjoint :
    (∀ (all : List (List Nat)) (ants : Int) (res : List (List Nat)),
      bestDisjointPaths all ants = .ok res →
      List.Pairwise (fun p q => ∀ r ∈ interiorRooms p, r ∉ interiorRooms q) res) ∧
    (∀ (g : Graph) (res : List (List Nat)), FindPaths g = .ok res →
      List.Pairwise (fun p q => ∀ r ∈ interiorRooms p, r ∉ interiorRooms q) res) := by
  have h1 : ∀ (all : List (List Nat)) (ants : Int) (res : List (List Nat)),
      bestDisjointPaths all ants = .ok res →
      List.Pairwise (fun p q => ∀ r ∈ interiorRooms p, r ∉ interiorRooms q) res := by
    intro all ants res h
    rw [bestDisjointPaths] at h
    cases hE : recE ants all 0 [] [] [] initSt with
    | error e =>
      rw [hE] at h
      exact absurd h (by simp [Except.map])
    | ok st =>
      rw [hE] at h
      have hres : st.best = res := by simpa [Except.map] using h
      have hbc : bestCombo all ants = st :=
        recE_eq_of_ok ants all 0 [] [] [] initSt st hE
      rw [← hres, ← hbc]
      rcases bestCombo_inv all ants with ⟨hinit, _⟩ | ⟨hmem, _, _, _, _⟩
      · rw [hinit]
        exact List.Pairwise.nil
      · obtain ⟨hOKb, hpb⟩ := (combosE_top_mem all _).1 hmem
        simp only [] at hOKb hpb
        rw [hpb]
        exact List.Pairwise.map _ (fun a b hab => hab) hOKb.2.2
  exact ⟨h1, fun g res h => h1 _ _ res h⟩

theorem claim_C2_interior_disjoint_witness :
    List.Pairwise (fun p q => ∀ r ∈ interiorRooms p, r ∉ interiorRooms q)
      [[0, 1, 3], [0, 2, 3]] :=
  claim_C2_interior_disjoint.2 gEx [[0, 1, 3], [0, 2, 3]]
    (by
      have h1 : allPaths gEx MaxPaths = [[0, 1, 3], [0, 2, 3]] := by
        simp [allPaths, gEx, dfsAux, dfsNbrs, MaxPaths]
      rw [FindPaths, h1]
      rfl)

/-- Scoring exactly at the sentinel: one direct route of hop count 1 and
a token count of `maxIntGo` need exactly `maxIntGo` turns (a wrap-free
scan), and the comparison `t < bestTurns` against the sentinel initial
value rejects the combination, so the search keeps the empty initial
best. -/
theorem bestDisjoint_single_maxInt :
    bestDisjointPaths [[0, 1]] maxIntGo = .ok [] := by
  have hlens : lensOf ([] ++ [[0, 1]] : List (List Nat)) = [1] := by decide
  have htOf : tOf maxIntGo ([] ++ [[0, 1]]) = maxIntGo := by
    rw [tOf, hlens, countTurns_one_maxInt]
    rfl
  have hoffer : offer maxIntGo initSt ([] ++ [[0, 1]]) ([] ++ [0]) = initSt := by
    rw [offer_eq, if_neg (by decide), htOf]
    rw [if_neg (by
      rw [show initSt.bestTurns = maxIntGo from rfl,
        show initSt.bestIdx = ([] : List Nat) from rfl, betterIdx_nil_right]
      simp)]
  have hinc : recE maxIntGo [] 1 ([] ++ [[0, 1]]) ([] ++ [0])
      ([] ++ interiorRooms [0, 1]) initSt = .ok initSt := by
    rw [recE, if_neg (by decide), hlens, countTurns_one_maxInt]
    exact congrArg Except.ok hoffer
  have hmain : recE maxIntGo [[0, 1]] 0 [] [] [] initSt = .ok initSt := by
    rw [recE, show recE maxIntGo [] (0 + 1) [] [] [] initSt = .ok initSt from rfl]
    simp only []
    rw [if_pos (by decide), if_pos (by decide)]
    exact hinc
  rw [bestDisjointPaths, hmain]
  rfl

/-- C3 counterexample: at `all = [[0,1]]` and token count `2^63 - 1`
(the Go `int` sentinel) the selector returns the empty set even though
the non-empty interior-disjoint combination `[0]` exists, so it does not
select among the fully-decided non-empty combinations as claimed: the
required turn count of every combination reaches the sentinel
`bestTurns` initialisation and the strict comparison rejects them all. -/
theorem claim_C3_counterexample :
    bestDisjointPaths [[0, 1]] maxIntGo = .ok [] ∧
    ComboOK [[0, 1]] [0] ∧ pathsOf [[0, 1]] [0] = [[0, 1]] ∧
    ([[0, 1]] : List (List Nat)) ≠ [] :=
  ⟨bestDisjoint_single_maxInt,
   ⟨List.chain'_singleton 0, by decide, List.pairwise_singleton _ 0⟩,
   rfl, by decide⟩

/-- C3 as amended: on a route list whose members all have at least two
rooms (so the interior slice is in bounds), with hop counts bounded by
`B` and — for a positive token count — `ants + B + 2·|all|` within the
Go `int` range (so every scored combination's scan terminates without
wrapping, strictly below the `bestTurns` sentinel), `bestDisjointPaths`
returns, for any given fully-decided non-empty interior-disjoint
combination, a combination that is optimal in the claimed total order:
strictly fewer turns beats more; on a turns tie, the index sequence
smaller at the first differing position of the shared prefix wins, and
with an entirely equal shared prefix the combination with fewer routes
wins (both captured by `specIdxLt`).  Outside that regime the claim
fails: at the sentinel the comparison rejects every combination, see
the counterexample (and with a wrapped scan the search does not return
at all, see the C8 counterexample). -/
theorem claim_C3_selector_order (all : List (List Nat)) (ants B : Int) (ix : List Nat)
    (hall : ∀ p ∈ all, 2 ≤ p.length ∧ (p.length : Int) ≤ B + 1)
    (hB : 1 ≤ B) (hBmax : B ≤ maxIntGo) (hkmax : (all.length : Int) ≤ maxIntGo)
    (hsz : 1 ≤ ants → ants + B + 2 * (all.length : Int) ≤ maxIntGo)
    (hOK : ComboOK all ix) (hne : ix ≠ []) :
    ∃ bix t bt, countTurns ants (lensOf (pathsOf all ix)) = some t ∧
      ComboOK all bix ∧ bix ≠ [] ∧
      bestDisjointPaths all ants = .ok (pathsOf all bix) ∧
      countTurns ants (lensOf (pathsOf all bix)) = some bt ∧
      (bt < t ∨ (bt = t ∧ (bix = ix ∨ specIdxLt bix ix = true))) := by
  have hterm := hterm_of_reg all ants B hall hB hBmax hkmax hsz
  obtain ⟨t, ht, _, hlt⟩ :=
    countTurns_combo_reg all ants B ix hall hB hBmax hkmax hsz hOK hne
  obtain ⟨bix, hOKb, hneb, hbest, _, _, hctb, hord⟩ :=
    bestCombo_spec all ants ix hterm hOK hne t ht hlt
  refine ⟨bix, t, (bestCombo all ants).bestTurns, ht, hOKb, hneb, ?_, hctb, hord⟩
  rw [bestDisjointPaths,
    recE_eq_ok ants all 0 [] [] [] initSt (fun p hp => (hall p hp).1) hterm]
  rw [show recP ants all 0 [] [] [] initSt = bestCombo all ants from rfl]
  rw [show Except.map (fun st : BestSt => st.best)
      (Except.ok (bestCombo all ants) : Except Fail BestSt) =
      .ok (bestCombo all ants).best from rfl, hbest]

theorem claim_C3_selector_order_witness :
    ∃ bix t bt, countTurns 3 (lensOf (pathsOf [[0, 1]] [0])) = some t ∧
      ComboOK [[0, 1]] bix ∧ bix ≠ [] ∧
      bestDisjointPaths [[0, 1]] 3 = .ok (pathsOf [[0, 1]] bix) ∧
      countTurns 3 (lensOf (pathsOf [[0, 1]] bix)) = some bt ∧
      (bt < t ∨ (bt = t ∧ (bix = [0] ∨ specIdxLt bix [0] = true))) :=
  claim_C3_selector_order [[0, 1]] 3 1 [0] (by decide) (by decide) (by decide)
    (by decide) (by decide)
    ⟨List.chain'_singleton 0, by decide, List.pairwise_singleton _ 0⟩
    (by decide)

/-- C8 counterexample: an input `bestDisjointPaths` really passes on
which the scan does not terminate.  With two direct Start-End routes
and token count `2^63 - 1`, the search scores the two singleton
combinations (each scan exits exactly at the sentinel) and then the
full combination with hop counts `[1, 1]` — whose wrapped accumulator
is always even and never reaches the odd target, so `countTurns` never
returns and the whole call hangs. -/
theorem claim_C8_counterexample :
    bestDisjointPaths [[0, 1], [0, 1]] maxIntGo = .error .hang := by
  have hlens1 : lensOf ([] ++ [[0, 1]] : List (List Nat)) = [1] := by decide
  have hlens2 : lensOf (([] ++ [[0, 1]]) ++ [[0, 1]] : List (List Nat)) = [1, 1] := by
    decide
  have hoffer : ∀ idxs : List Nat,
      offer maxIntGo initSt ([] ++ [[0, 1]]) idxs = initSt := by
    intro idxs
    have htOf : tOf maxIntGo ([] ++ [[0, 1]]) = maxIntGo := by
      rw [tOf, hlens1, countTurns_one_maxInt]
      rfl
    rw [offer_eq, if_neg (by decide), htOf]
    rw [if_neg (by
      rw [show initSt.bestTurns = maxIntGo from rfl,
        show initSt.bestIdx = ([] : List Nat) from rfl, betterIdx_nil_right]
      simp)]
  have hbase : ∀ (i : Nat) (idxs : List Nat),
      recE maxIntGo [] i ([] ++ [[0, 1]]) idxs [] initSt = .ok initSt := by
    intro i idxs
    rw [recE, if_neg (by decide), hlens1, countTurns_one_maxInt]
    exact congrArg Except.ok (hoffer idxs)
  have hskip1 : recE maxIntGo [[0, 1]] (0 + 1) [] [] [] initSt = .ok initSt := by
    rw [recE, show recE maxIntGo [] (0 + 1 + 1) [] [] [] initSt = .ok initSt from rfl]
    simp only []
    rw [if_pos (by decide), if_pos (by decide)]
    exact hbase (0 + 1 + 1) ([] ++ [0 + 1])
  have hhang : recE maxIntGo [[0, 1]] (0 + 1) ([] ++ [[0, 1]]) ([] ++ [0]) [] initSt =
      .error .hang := by
    rw [recE, hbase (0 + 1 + 1) ([] ++ [0])]
    simp only []
    rw [if_pos (by decide), if_pos (by decide)]
    rw [recE, if_neg (by decide), hlens2, countTurns_ones_none]
  have hmain : recE maxIntGo [[0, 1], [0, 1]] 0 [] [] [] initSt = .error .hang := by
    rw [recE, hskip1]
    simp only []
    rw [if_pos (by decide), if_pos (by decide)]
    have : ([] : List Nat) ++ interiorRooms [0, 1] = [] := by decide
    rw [this]
    exact hhang
  rw [bestDisjointPaths, hmain]
  rfl

/-- Elementary facts about the sorted route list of a well-formed graph
with distinct Start and End: every member has between 2 and
`g.rooms.length` rooms, and there are at most `MaxPaths` of them. -/
theorem sorted_routes_facts (g : Graph) (hw : wfGraph g) (hse : g.start ≠ g.finish) :
    (∀ p ∈ sortRoutes (allPaths g MaxPaths),
      2 ≤ p.length ∧ p.length ≤ g.rooms.length) ∧
    (sortRoutes (allPaths g MaxPaths)).length ≤ MaxPaths := by
  constructor
  · intro p hp
    have hmem : p ∈ allPaths g MaxPaths :=
      (sortRoutes_perm (allPaths g MaxPaths)).subset hp
    have hOK : routeOK g p := allPaths_routeOK g MaxPaths p hmem
    refine ⟨allPaths_two_le g MaxPaths hse p hmem, ?_⟩
    have hsub : p.Subperm g.rooms :=
      List.Nodup.subperm hOK.2.2.1 (fun x hx => routeOK_mem_rooms g hw p hOK x hx)
    exact hsub.length_le
  · rw [(sortRoutes_perm (allPaths g MaxPaths)).length_eq]
    exact (dfs_length_le g MaxPaths (g.rooms.length + 1)).1 g.start [] [] [] (by simp)

/-- Shared engine-success lemma: on a well-formed graph with distinct
Start and End, a witnessing route, every scored combination scanning to
completion, and a singleton combination scoring below the sentinel,
`FindPaths` returns a non-empty Route Set with a defined turn count. -/
theorem findPaths_some_nonempty (g : Graph) (hw : wfGraph g)
    (hse : g.start ≠ g.finish) (q : List Nat) (hq : routeOK g q) (t : Int)
    (hterm : ∀ ci : List (List Nat) × List Nat,
      ci ∈ combosE (sortRoutes (allPaths g MaxPaths)) 0 [] [] [] → ci.1 ≠ [] →
      (countTurns g.ants (lensOf ci.1)).isSome = true)
    (ht : countTurns g.ants
        (lensOf (pathsOf (sortRoutes (allPaths g MaxPaths)) [0])) = some t)
    (hlt : t < maxIntGo) :
    ∃ res, FindPaths g = .ok res ∧ res ≠ [] ∧
      ∃ T, countTurns g.ants (lensOf res) = some T := by
  have hne : allPaths g MaxPaths ≠ [] :=
    allPaths_ne_nil g MaxPaths hw (by norm_num [MaxPaths]) q hq
  have hne' : sortRoutes (allPaths g MaxPaths) ≠ [] := by
    intro h
    apply hne
    have hperm := sortRoutes_perm (allPaths g MaxPaths)
    rw [h] at hperm
    exact (List.Perm.nil_eq hperm).symm
  have hOKix : ComboOK (sortRoutes (allPaths g MaxPaths)) [0] :=
    ⟨List.chain'_singleton 0,
     by
       intro j hj
       rw [List.mem_singleton] at hj
       subst hj
       exact List.length_pos.2 hne',
     List.pairwise_singleton _ 0⟩
  obtain ⟨bix, hOKb, hneb, hbest, _, _, hctb, _⟩ :=
    bestCombo_spec (sortRoutes (allPaths g MaxPaths)) g.ants [0] hterm hOKix
      (by simp) t ht hlt
  have hall2 : ∀ p ∈ sortRoutes (allPaths g MaxPaths), 2 ≤ p.length :=
    fun p hp => ((sorted_routes_facts g hw hse).1 p hp).1
  refine ⟨pathsOf (sortRoutes (allPaths g MaxPaths)) bix, ?_, ?_, ?_⟩
  · rw [FindPaths, bestDisjointPaths,
      recE_eq_ok g.ants (sortRoutes (allPaths g MaxPaths)) 0 [] [] [] initSt
        hall2 hterm]
    rw [show recP g.ants (sortRoutes (allPaths g MaxPaths)) 0 [] [] [] initSt =
        bestCombo (sortRoutes (allPaths g MaxPaths)) g.ants from rfl]
    rw [show Except.map (fun st : BestSt => st.best)
        (Except.ok (bestCombo (sortRoutes (allPaths g MaxPaths)) g.ants) :
          Except Fail BestSt) =
        .ok (bestCombo (sortRoutes (allPaths g MaxPaths)) g.ants).best from rfl,
      hbest]
  · exact pathsOf_ne_nil _ bix hneb
  · exact ⟨(bestCombo (sortRoutes (allPaths g MaxPaths)) g.ants).bestTurns, hctb⟩

/-- C4 as amended: on a well-formed graph with Start distinct from End
and connected to it, a positive token count small enough that the
64-bit arithmetic of the scan stays exact — token count plus room count
plus `2·MaxPaths` within `2^63 - 1` — `FindPaths` returns a non-empty
Route Set whose turn count is a defined (finite) value.  Without the
size bound the unamended claim fails: at token count `2^63 - 1` a
single direct route is rejected by the sentinel (see the
counterexample), and other out-of-range token counts make the scan
wrap and hang (see the C8 counterexample). -/
theorem claim_C4_engine_nonempty (g : Graph) (hw : wfGraph g)
    (hse : g.start ≠ g.finish) (q : List Nat) (hq : routeOK g q)
    (hpos : 0 < g.ants)
    (hsize : g.ants + (g.rooms.length : Int) + 100 ≤ maxIntGo) :
    ∃ res, FindPaths g = .ok res ∧ res ≠ [] ∧
      ∃ T, countTurns g.ants (lensOf res) = some T := by
  have hM : maxIntGo = 9223372036854775807 := rfl
  obtain ⟨hmem2, hlen50⟩ := sorted_routes_facts g hw hse
  have hroomspos : 1 ≤ (g.rooms.length : Int) := by
    have : g.rooms.length ≠ 0 := by
      intro he
      have := hw.2.1
      rw [List.length_eq_zero.1 he] at this
      exact absurd this (List.not_mem_nil g.start)
    omega
  have hroomsmax : (g.rooms.length : Int) ≤ maxIntGo := hw.2.2.2
  have hkmax : ((sortRoutes (allPaths g MaxPaths)).length : Int) ≤ maxIntGo := by
    have h50 : ((sortRoutes (allPaths g MaxPaths)).length : Int) ≤ 50 := by
      exact_mod_cast le_trans hlen50 (by norm_num [MaxPaths])
    omega
  have hk50 : ((sortRoutes (allPaths g MaxPaths)).length : Int) ≤ 50 := by
    exact_mod_cast le_trans hlen50 (by norm_num [MaxPaths])
  have hall : ∀ p ∈ sortRoutes (allPaths g MaxPaths),
      2 ≤ p.length ∧ (p.length : Int) ≤ (g.rooms.length : Int) + 1 := by
    intro p hp
    obtain ⟨h2, hle⟩ := hmem2 p hp
    exact ⟨h2, by exact_mod_cast Nat.le_succ_of_le hle⟩
  have hterm := hterm_of_reg (sortRoutes (allPaths g MaxPaths)) g.ants
    (g.rooms.length : Int) hall hroomspos hroomsmax hkmax
    (fun _ => by omega)
  have hne : allPaths g MaxPaths ≠ [] :=
    allPaths_ne_nil g MaxPaths hw (by norm_num [MaxPaths]) q hq
  have hne' : sortRoutes (allPaths g MaxPaths) ≠ [] := by
    intro h
    apply hne
    have hperm := sortRoutes_perm (allPaths g MaxPaths)
    rw [h] at hperm
    exact (List.Perm.nil_eq hperm).symm
  set p0 := (sortRoutes (allPaths g MaxPaths)).getD 0 [] with hp0
  have hp0mem : p0 ∈ sortRoutes (allPaths g MaxPaths) := by
    cases hall' : sortRoutes (allPaths g MaxPaths) with
    | nil => exact absurd hall' hne'
    | cons a tl =>
      rw [hp0, hall']
      exact List.mem_cons_self a tl
  obtain ⟨hlen2, hlenle⟩ := hmem2 p0 hp0mem
  have hlenleZ : ((p0.length : Int)) ≤ (g.rooms.length : Int) := by
    exact_mod_cast hlenle
  have hlens : lensOf (pathsOf (sortRoutes (allPaths g MaxPaths)) [0]) =
      [(p0.length : Int) - 1] := rfl
  have hct := countTurns_single g.ants ((p0.length : Int) - 1)
    (by omega) (by omega) (by omega)
  have hlt : (p0.length : Int) - 1 + g.ants - 1 < maxIntGo := by omega
  exact findPaths_some_nonempty g hw hse q hq ((p0.length : Int) - 1 + g.ants - 1)
    hterm (by rw [hlens, hct]) hlt

/-- C4 counterexample: `gBig` is well-formed, Start is connected to End
by the route `[0, 1]`, and its token count `2^63 - 1` is positive, yet
`FindPaths` returns the empty Route Set: the single combination needs
exactly `2^63 - 1` turns, which the sentinel comparison in
`bestDisjointPaths` rejects. -/
theorem claim_C4_counterexample :
    FindPaths gBig = .ok [] ∧ wfGraph gBig ∧ routeOK gBig [0, 1] ∧ 0 < gBig.ants := by
  refine ⟨?_, by decide, by decide, by decide⟩
  have h1 : allPaths gBig MaxPaths = [[0, 1]] := by
    simp [allPaths, gBig, dfsAux, dfsNbrs, MaxPaths]
  rw [FindPaths, h1, show sortRoutes [[0, 1]] = [[0, 1]] from rfl,
    show gBig.ants = maxIntGo from rfl]
  exact bestDisjoint_single_maxInt

theorem claim_C4_engine_nonempty_witness :
    ∃ res, FindPaths gEx = .ok res ∧ res ≠ [] ∧
      ∃ T, countTurns gEx.ants (lensOf res) = some T :=
  claim_C4_engine_nonempty gEx (by decide) (by decide) [0, 1, 3] (by decide)
    (by decide) (by decide)

/-- C9 counterexample: the degenerate token count 0 is not reported as
an invalid-input error; `FindPaths` silently returns the normal
non-empty Route Set `[[0, 1]]` for `gZero`. -/
theorem claim_C9_counterexample :
    FindPaths gZero = .ok [[0, 1]] ∧ gZero.ants = 0 := by
  constructor
  · have h1 : allPaths gZero MaxPaths = [[0, 1]] := by
      simp [allPaths, gZero, dfsAux, dfsNbrs, MaxPaths]
    rw [FindPaths, h1]
    rfl
  · rfl

/-- C9 as amended: the engine performs no degenerate-input validation.
With Start equal to End, `FindPaths` evaluates the out-of-range interior
slice on the one-room route `[Start]` and aborts (the runtime panic
`Fail.panic`) for every graph — a crash, not a reported invalid-input
error.  With a zero or negative token count on an otherwise solvable
graph it proceeds silently and returns a normal non-empty Route Set
(the scan exits at one turn without ever wrapping). -/
theorem claim_C9_no_degenerate_validation :
    (∀ g : Graph, g.start = g.finish → FindPaths g = .error Fail.panic) ∧
    (∀ g : Graph, wfGraph g → g.start ≠ g.finish → (∃ q, routeOK g q) → g.ants ≤ 0 →
      ∃ res, FindPaths g = .ok res ∧ res ≠ []) := by
  constructor
  · intro g hsf
    have h1 : allPaths g MaxPaths = [[g.start]] := by
      rw [allPaths, dfsAux, if_neg (by norm_num [MaxPaths]), if_pos hsf]
      simp
    rw [FindPaths, h1, show sortRoutes [[g.start]] = [[g.start]] from rfl]
    rw [bestDisjointPaths,
      show recE g.ants [[g.start]] 0 [] [] [] initSt = .error .panic from by
        rw [recE, show recE g.ants [] (0 + 1) [] [] [] initSt = .ok initSt from rfl]
        simp only []
        rw [if_neg (by simp)]]
    rfl
  · intro g hw hse ⟨q, hq⟩ hants
    have hM : maxIntGo = 9223372036854775807 := rfl
    obtain ⟨hmem2, hlen50⟩ := sorted_routes_facts g hw hse
    have hroomsmax : (g.rooms.length : Int) ≤ maxIntGo := hw.2.2.2
    have hkmax : ((sortRoutes (allPaths g MaxPaths)).length : Int) ≤ maxIntGo := by
      have h50 : ((sortRoutes (allPaths g MaxPaths)).length : Int) ≤ 50 := by
        exact_mod_cast le_trans hlen50 (by norm_num [MaxPaths])
      omega
    have hall : ∀ p ∈ sortRoutes (allPaths g MaxPaths),
        2 ≤ p.length ∧ (p.length : Int) ≤ maxIntGo + 1 := by
      intro p hp
      obtain ⟨h2, hle⟩ := hmem2 p hp
      have : ((p.length : Int)) ≤ (g.rooms.length : Int) := by exact_mod_cast hle
      exact ⟨h2, by omega⟩
    have hterm := hterm_of_reg (sortRoutes (allPaths g MaxPaths)) g.ants maxIntGo
      hall (by omega) (le_refl _) hkmax (fun ha => absurd hants (by omega))
    have hne : allPaths g MaxPaths ≠ [] :=
      allPaths_ne_nil g MaxPaths hw (by norm_num [MaxPaths]) q hq
    have hne' : sortRoutes (allPaths g MaxPaths) ≠ [] := by
      intro h
      apply hne
      have hperm := sortRoutes_perm (allPaths g MaxPaths)
      rw [h] at hperm
      exact (List.Perm.nil_eq hperm).symm
    set p0 := (sortRoutes (allPaths g MaxPaths)).getD 0 [] with hp0
    have hp0mem : p0 ∈ sortRoutes (allPaths g MaxPaths) := by
      cases hall' : sortRoutes (allPaths g MaxPaths) with
      | nil => exact absurd hall' hne'
      | cons a tl =>
        rw [hp0, hall']
        exact List.mem_cons_self a tl
    obtain ⟨hlen2, hlenle⟩ := hmem2 p0 hp0mem
    have hlenleZ : ((p0.length : Int)) ≤ (g.rooms.length : Int) := by
      exact_mod_cast hlenle
    have hlens : lensOf (pathsOf (sortRoutes (allPaths g MaxPaths)) [0]) =
        [(p0.length : Int) - 1] := rfl
    have ht : countTurns g.ants
        (lensOf (pathsOf (sortRoutes (allPaths g MaxPaths)) [0])) = some 1 := by
      rw [hlens]
      exact countTurns_nonpos g.ants [(p0.length : Int) - 1] hants
        (by
          intro l hlm
          have hlL : l = (p0.length : Int) - 1 := by simpa using hlm
          subst hlL
          constructor <;> omega)
        (by simp; omega)
    obtain ⟨res, h1, h2, _⟩ := findPaths_some_nonempty g hw hse q hq 1 hterm ht
      (by norm_num [maxIntGo])
    exact ⟨res, h1, h2⟩

theorem claim_C9_no_degenerate_validation_witness :
    FindPaths gSame = .error Fail.panic ∧
      ∃ res, FindPaths gZero = .ok res ∧ res ≠ [] :=
  ⟨claim_C9_no_degenerate_validation.1 gSame rfl,
   claim_C9_no_degenerate_validation.2 gZero (by decide) (by decide)
     ⟨[0, 1], by decide⟩ (by decide)⟩
